import Mathlib

/-!
Verification of the packed Game of Life kernel in `life_optimized.cpp`.

The program stores cells as 4-bit lanes ("nybbles") inside 64-bit words, 16
cells per word.  Bit 0 of a lane is the most recently computed state of the
cell, bit 1 the state one generation older.  A generation step (`advance`)
runs `runRow` over the interior rows; `runRow` keeps a pipeline of per-column
sums (cell above + cell + cell below) and assembles the 3x3 neighbourhood sum
of a whole word at a time, then `neighborSumToStateBit` turns those sums into
next-generation bits branch-free.

Embedding conventions: a board is a total function from word index to word
value (`uint64_t*`), machine words are `Nat` with an explicit `% 2 ^ 64`
wherever the C computation could wrap, and the C loops become `List.foldl`
over the corresponding index ranges.  All definitions are executable.
-/

namespace Life

/-- Board buffer: word index to 64-bit word value (models `uint64_t *board`). -/
abbrev Board := Nat → Nat

/-- Model of `constexpr uint32_t R = 1<<10`, the number of interior rows. -/
def R : Nat := 2 ^ 10

/-- Model of `constexpr uint32_t C = 1<<11`, the number of real columns. -/
def C : Nat := 2 ^ 11

/-- Model of `constexpr uint8_t GROUP_BIT_SIZE = 64`. -/
def GROUP_BIT_SIZE : Nat := 64

/-- Model of `constexpr uint32_t CELLS_PER_GROUP = GROUP_BIT_SIZE / 4`. -/
def CELLS_PER_GROUP : Nat := GROUP_BIT_SIZE / 4

/-- Model of `constexpr uint32_t GROUPS_PER_ROW = (C / CELLS_PER_GROUP) + 1`. -/
def GROUPS_PER_ROW : Nat := C / CELLS_PER_GROUP + 1

/-- Model of `constexpr auto BOARD_SIZE_GROUPS = GROUPS_PER_ROW * (R+2)`. -/
def BOARD_SIZE_GROUPS : Nat := GROUPS_PER_ROW * (R + 2)

/-- Model of `constexpr uint64_t TOP_NYBBLET_BITTMASK = 0xCCCCCCCCCCCCCCCC`. -/
def TOP_NYBBLET_BITTMASK : Nat := 0xCCCCCCCCCCCCCCCC

/-- Model of `constexpr uint64_t LOW_BIT_NYBBLE_BITMASK = 0x1111111111111111`. -/
def LOW_BIT_NYBBLE_BITMASK : Nat := 0x1111111111111111

/-- Model of `getColSumsForGroup`: returns the column-sum word together with
the by-reference output `group_val_out` (the bit-0 lanes of the group). -/
def getColSumsForGroup (board : Board) (group_index : Nat) : Nat × Nat :=
  let group_val_out := board group_index &&& LOW_BIT_NYBBLE_BITMASK
  let topvals := (board (group_index - GROUPS_PER_ROW) >>> 1) &&& LOW_BIT_NYBBLE_BITMASK
  let botvals := board (group_index + GROUPS_PER_ROW) &&& LOW_BIT_NYBBLE_BITMASK
  (group_val_out + (topvals + botvals), group_val_out)

/-- Model of `neighborSumToStateBit`.  The uint64 subtraction `sum_neighbors -=
group_value` is rendered as addition of `2 ^ 64` followed by `% 2 ^ 64`, which
agrees with two's-complement wraparound for all operands below `2 ^ 64`. -/
def neighborSumToStateBit (sum_neighbors group_value : Nat) : Nat :=
  let s1 := (2 ^ 64 + sum_neighbors - group_value) % 2 ^ 64
  let s2 := s1 ||| group_value
  let s3 := s2 ^^^ TOP_NYBBLET_BITTMASK
  let s4 := s3 &&& (s3 >>> 2)
  let s5 := s4 &&& (s4 >>> 1)
  s5 &&& LOW_BIT_NYBBLE_BITMASK

/-- Model of `moveColSumsDownPipeline`: the three reference parameters after
the two assignments `prev = curr; curr = next` (the third is unchanged). -/
def moveColSumsDownPipeline (prev_col_sum curr_col_sums next_col_sums : Nat) :
    Nat × Nat × Nat :=
  (curr_col_sums, next_col_sums, next_col_sums)

/-- Model of `updateBoardIndex`: functional update of the board at
`board_index` with bit-0 lanes of the previous state shifted into bit 1 and
the new state bits in bit 0. -/
def updateBoardIndex (board : Board) (board_index new_state_bit_values prev_board_state : Nat) :
    Board :=
  let prev_state_shifted := ((prev_board_state &&& LOW_BIT_NYBBLE_BITMASK) <<< 1) % 2 ^ 64
  let w := prev_state_shifted ||| (new_state_bit_values &&& LOW_BIT_NYBBLE_BITMASK)
  fun j => if j = board_index then w else board j

/-- Model of `createLeftNeighborsFromColSums`. -/
def createLeftNeighborsFromColSums (curr_col_sums prev_col_sum : Nat) : Nat :=
  let left_neighbors := curr_col_sums >>> 4
  let prev_carry_cell := (prev_col_sum <<< 60) % 2 ^ 64
  left_neighbors ||| prev_carry_cell

/-- Model of `createRightNeighborsFromColSums`. -/
def createRightNeighborsFromColSums (curr_col_sums next_col_sums : Nat) : Nat :=
  let right_neighbors := (curr_col_sums <<< 4) % 2 ^ 64
  let next_carry_cell := next_col_sums >>> 60
  right_neighbors ||| next_carry_cell

/-- The local variables of `runRow` that survive from one loop iteration to
the next, together with the board being mutated in place. -/
structure RowState where
  board : Board
  prev_col_sum : Nat
  curr_col_sums : Nat
  next_col_sums : Nat
  next_group_vals : Nat

/-- One iteration of the group loop inside `runRow`. -/
def runRowStep (row_start_index : Nat) (st : RowState) (group : Nat) : RowState :=
  let moved := moveColSumsDownPipeline st.prev_col_sum st.curr_col_sums st.next_col_sums
  let prev_col_sum := moved.1
  let curr_col_sums := moved.2.1
  let curr_group_vals := st.next_group_vals
  let fetched := getColSumsForGroup st.board (row_start_index + group)
  let next_col_sums := fetched.1
  let next_group_vals := fetched.2
  let left := createLeftNeighborsFromColSums curr_col_sums prev_col_sum
  let right := createRightNeighborsFromColSums curr_col_sums next_col_sums
  let current_neighbors := (curr_col_sums + left + right) % 2 ^ 64
  let new_state := neighborSumToStateBit current_neighbors curr_group_vals
  { board := updateBoardIndex st.board (row_start_index + group - 1) new_state curr_group_vals,
    prev_col_sum := prev_col_sum, curr_col_sums := curr_col_sums,
    next_col_sums := next_col_sums, next_group_vals := next_group_vals }

/-- Model of `runRow`: the initial fetch of group 0 followed by the loop
`for (group = 1; group < GROUPS_PER_ROW; group++)`. -/
def runRow (board : Board) (row : Nat) : Board :=
  let row_start_index := row * GROUPS_PER_ROW
  let fetched := getColSumsForGroup board row_start_index
  ((List.range' 1 (GROUPS_PER_ROW - 1)).foldl (runRowStep row_start_index)
    { board := board, prev_col_sum := 0, curr_col_sums := 0,
      next_col_sums := fetched.1, next_group_vals := fetched.2 }).board

/-- Model of `advance` executed sequentially, row by row in increasing row
order: `for (row = 1; row < R + 1; row++) runRow(board, row)`. -/
def advance (board : Board) : Board :=
  (List.range' 1 R).foldl runRow board

/-- One serialization of the `omp parallel for` in `advance`: the rows of one
step executed one after the other in the given order.  `advance` itself is
`advanceWithRowOrder (List.range' 1 R)`. -/
def advanceWithRowOrder (rows : List Nat) (board : Board) : Board :=
  rows.foldl runRow board

/-! ### Semantic helper layer: lanes and per-cell views of words -/

/-- Lane `j` of a word: the 4-bit nybble at bit offset `4*j` (lane 0 is the
least significant nybble).  Within a group, the cell at column offset `m`
(0 = leftmost cell) sits in lane `15 - m`. -/
def lane (j w : Nat) : Nat := w / 16 ^ j % 16

/-- Value of the word whose lanes `0, ..., n-1` are `f 0, ..., f (n-1)`. -/
def lanesVal (f : Nat → Nat) : Nat → Nat
  | 0 => 0
  | n + 1 => lanesVal f n + f n * 16 ^ n

/-- Bit 0 (the current state) of the cell of board row `row` at column `col`:
lane `15 - col % 16` of the word at index `row * GROUPS_PER_ROW + col / 16`. -/
def colBit (b : Board) (row col : Nat) : Nat :=
  lane (15 - col % 16) (b (row * GROUPS_PER_ROW + col / 16)) % 2

/-- Bit 1 (the previous state) of the cell of board row `row` at column `col`. -/
def colPrevBit (b : Board) (row col : Nat) : Nat :=
  lane (15 - col % 16) (b (row * GROUPS_PER_ROW + col / 16)) / 2 % 2

/-- The column sum read by the kernel for a cell of row `row`: bit 1 of the
row above (already advanced in-place), plus bit 0 of the row itself and of the
row below. -/
def vertSum (b : Board) (row col : Nat) : Nat :=
  colPrevBit b (row - 1) col + colBit b row col + colBit b (row + 1) col

/-- The assembled 3x3 sum (self included) for a cell, from the column sums of
the cell's own column and its two horizontal neighbours (0 beyond the left
edge). -/
def nbhdSum (b : Board) (row col : Nat) : Nat :=
  (if col = 0 then 0 else vertSum b row (col - 1)) + vertSum b row col +
    vertSum b row (col + 1)

/-- The Life rule on (3x3 sum including self, self bit): alive next iff the
neighbour count `sum - self` is 3, or it is 2 and the cell is alive. -/
def ruleBit (sum self : Nat) : Nat :=
  if sum - self = 3 ∨ (sum - self = 2 ∧ self = 1) then 1 else 0

/-- The word that the group loop of `runRow` writes at index `rsi + j`
(`rsi` = row start index), expressed as a function of the board contents at
the start of the row (the loop never reads a word it has already written). -/
def rowNewWord (b : Board) (rsi j : Nat) : Nat :=
  let prev_cs := if j = 0 then 0 else (getColSumsForGroup b (rsi + j - 1)).1
  let curr := getColSumsForGroup b (rsi + j)
  let next_cs := (getColSumsForGroup b (rsi + j + 1)).1
  let left := createLeftNeighborsFromColSums curr.1 prev_cs
  let right := createRightNeighborsFromColSums curr.1 next_cs
  let nb := (curr.1 + left + right) % 2 ^ 64
  (((curr.2 &&& LOW_BIT_NYBBLE_BITMASK) <<< 1) % 2 ^ 64) |||
    (neighborSumToStateBit nb curr.2 &&& LOW_BIT_NYBBLE_BITMASK)

/-- The board after the first `k` iterations of the group loop of one row:
groups `0, ..., k-1` hold their freshly written words. -/
def rowPartial (b : Board) (rsi k : Nat) : Board := fun i =>
  if rsi ≤ i ∧ i < rsi + k then rowNewWord b rsi (i - rsi) else b i

/-- The full `RowState` after the first `k` iterations of the group loop. -/
def rowStateAt (b : Board) (rsi k : Nat) : RowState :=
  { board := rowPartial b rsi k,
    prev_col_sum := if 2 ≤ k then (getColSumsForGroup b (rsi + (k - 2))).1 else 0,
    curr_col_sums := if 1 ≤ k then (getColSumsForGroup b (rsi + (k - 1))).1 else 0,
    next_col_sums := (getColSumsForGroup b (rsi + k)).1,
    next_group_vals := (getColSumsForGroup b (rsi + k)).2 }

/-! ### Reference simulation, modelled from the spec

The specification's conformance bar for the kernel: "a straightforward
per-cell, per-generation reference simulation using an explicit double buffer
and the textbook rule" on an `R x C` grid with dead borders and no
wraparound.  `naiveStep` computes the whole next grid from the old grid (the
double buffer), one cell at a time. -/

/-- Textbook Life rule: alive next iff neighbour count is 3, or the cell is
alive and the count is 2. -/
def lifeNext (alive : Bool) (neighbor_count : Nat) : Bool :=
  neighbor_count == 3 || (alive && neighbor_count == 2)

/-- 0/1 value of a cell of the reference grid; out-of-range cells are dead. -/
def gridBit (g : Nat → Nat → Bool) (r c : Nat) : Nat :=
  if r < R ∧ c < C ∧ g r c = true then 1 else 0

/-- Number of live neighbours among the 8 cells around `(r, c)`; cells beyond
the grid edge are dead (no wraparound). -/
def naiveNeighborCount (g : Nat → Nat → Bool) (r c : Nat) : Nat :=
  (if 1 ≤ r ∧ 1 ≤ c then gridBit g (r - 1) (c - 1) else 0) +
  (if 1 ≤ r then gridBit g (r - 1) c else 0) +
  (if 1 ≤ r then gridBit g (r - 1) (c + 1) else 0) +
  (if 1 ≤ c then gridBit g r (c - 1) else 0) +
  gridBit g r (c + 1) +
  (if 1 ≤ c then gridBit g (r + 1) (c - 1) else 0) +
  gridBit g (r + 1) c +
  gridBit g (r + 1) (c + 1)

/-- One generation of the reference simulation (explicit double buffer: the
new grid is a pure function of the old grid). -/
def naiveStep (g : Nat → Nat → Bool) : Nat → Nat → Bool := fun r c =>
  lifeNext (g r c) (naiveNeighborCount g r c)

/-- The alive/dead grid represented by a board: bit 0 of the interior lanes.
Logical cell `(r, c)` (0-based) lives in board row `r + 1`. -/
def gridOf (b : Board) (r c : Nat) : Bool := colBit b (r + 1) c == 1

/-! ### Invariants -/

/-- The border rows (row 0 and row `R+1`) and the trailing padding group of
every row are all-zero words. -/
def BorderZero (b : Board) : Prop :=
  (∀ g, g < GROUPS_PER_ROW → b g = 0) ∧
  (∀ g, g < GROUPS_PER_ROW → b ((R + 1) * GROUPS_PER_ROW + g) = 0) ∧
  (∀ row, row ≤ R + 1 → b (row * GROUPS_PER_ROW + (GROUPS_PER_ROW - 1)) = 0)

/-- Every word of the board is a genuine 64-bit value and every lane has bits
2 and 3 clear (lane value below 4). -/
def LaneInv (b : Board) : Prop :=
  ∀ i, b i < 2 ^ 64 ∧ ∀ t, t < 16 → lane t (b i) < 4

/-! ### Access-index instrumentation for the bounds claim -/

/-- The three board indices read by one call of `getColSumsForGroup`. -/
def colSumReadIndices (group_index : Nat) : List Nat :=
  [group_index - GROUPS_PER_ROW, group_index, group_index + GROUPS_PER_ROW]

/-- All board indices read during `runRow board row`: `getColSumsForGroup` is
called for every group `0, ..., GROUPS_PER_ROW - 1` of the row. -/
def runRowReadIndices (row : Nat) : List Nat :=
  (List.range GROUPS_PER_ROW).flatMap
    (fun g => colSumReadIndices (row * GROUPS_PER_ROW + g))

/-- All board indices written during `runRow board row`: `updateBoardIndex`
is called with `row_start_index + group - 1` for `group = 1, ...,
GROUPS_PER_ROW - 1`. -/
def runRowWriteIndices (row : Nat) : List Nat :=
  (List.range' 1 (GROUPS_PER_ROW - 1)).map (fun g => row * GROUPS_PER_ROW + g - 1)

/-! ### Board initialization in `main` -/

/-- One call of `rand()%2 == 0` turned into a cell bit; the pseudo-random
stream is modelled as a function from call counter to value (the program
always seeds it with the constant 0, so the stream is fixed across runs). -/
def initCellBit (rand : Nat → Nat) (call_index : Nat) : Nat :=
  if rand call_index % 2 = 0 then 1 else 0

/-- Model of the innermost init loop: `groupValue <<= 4; groupValue |= ...`
over the 16 cells of one group, consuming `rand` calls `first_call, ...,
first_call + 15`. -/
def initGroupValue (rand : Nat → Nat) (first_call : Nat) : Nat :=
  (List.range CELLS_PER_GROUP).foldl
    (fun groupValue cell =>
      ((groupValue <<< 4) % 2 ^ 64) ||| initCellBit rand (first_call + cell)) 0

/-- Prefix of the inner init loop of `main`: the group value after the first
`m` of the 16 cell iterations. -/
def initGroupFold (rand : Nat → Nat) (first_call m : Nat) : Nat :=
  (List.range m).foldl
    (fun groupValue cell =>
      ((groupValue <<< 4) % 2 ^ 64) ||| initCellBit rand (first_call + cell)) 0

/-- The board built by `main` after `calloc` (all zero) and the row/column
init loops: rows `1, ..., R`, groups `0, ..., GROUPS_PER_ROW - 2` get random
group values; the `rand` call counter advances row-major. -/
def mainInitialBoard (rand : Nat → Nat) : Board := fun i =>
  if 1 ≤ i / GROUPS_PER_ROW ∧ i / GROUPS_PER_ROW ≤ R ∧
      i % GROUPS_PER_ROW < GROUPS_PER_ROW - 1 then
    initGroupValue rand
      (((i / GROUPS_PER_ROW - 1) * (GROUPS_PER_ROW - 1) + i % GROUPS_PER_ROW) *
        CELLS_PER_GROUP)
  else 0

/-- The board `main` constructs on the `argc == 3` path.  The command-line
arguments (step count and print flag) are accepted but never consulted by the
initialization: `srand(0)` is a constant seed and the dimensions are
compile-time constants. -/
def mainBoardAfterArgs (_argv_reps _argv_print : Nat) (rand : Nat → Nat) : Board :=
  mainInitialBoard rand

/-! ### Concrete gadgets for the concurrency counterexample -/

/-- A board with a single horizontal blinker: cells `(0,0), (0,1), (0,2)` of
the logical grid (board row 1, group 0, the three leftmost lanes) alive. -/
def blinkerBoard : Board := fun i =>
  if i = GROUPS_PER_ROW then 0x1110000000000000 else 0

/-- A legal serialization of the unsynchronized `omp parallel for`: row 2 is
executed before row 1, all other rows in their usual order. -/
def swappedRowOrder : List Nat := 2 :: 1 :: List.range' 3 (R - 2)

/-- The board with row 1 advanced, restricted to the six words the row-2
computation reads. -/
def blinkerAfterRow1 : Board := fun i =>
  if i = GROUPS_PER_ROW then 0x2320000000000000 else 0

/-- Single bit `k` of a word, as a natural number. -/
def bitOf (k w : Nat) : Nat := w / 2 ^ k % 2

/-- Column sum of a cell read entirely from one board snapshot's bit 0 (the
textbook reading, used to state what one whole `advance` step computes). -/
def vertOld (b : Board) (row col : Nat) : Nat :=
  colBit b (row - 1) col + colBit b row col + colBit b (row + 1) col

/-- 3x3 sum (self included) of a cell from one board snapshot's bit 0. -/
def nbhdOld (b : Board) (row col : Nat) : Nat :=
  (if col = 0 then 0 else vertOld b row (col - 1)) + vertOld b row col +
    vertOld b row (col + 1)

/-- The next-generation bit of a cell, from one board snapshot's bit 0. -/
def newBit (b : Board) (row col : Nat) : Nat :=
  ruleBit (nbhdOld b row col) (colBit b row col)

/-- The value `curr_col_sums + left + right` assembled by the group loop for
group `(rsi, j)` of a row, before the wrap to 64 bits. -/
def assembledSums (b : Board) (rsi j : Nat) : Nat :=
  (getColSumsForGroup b (rsi + j)).1 +
    createLeftNeighborsFromColSums (getColSumsForGroup b (rsi + j)).1
      (if j = 0 then 0 else (getColSumsForGroup b (rsi + j - 1)).1) +
    createRightNeighborsFromColSums (getColSumsForGroup b (rsi + j)).1
      (getColSumsForGroup b (rsi + j + 1)).1

/-- Invariant of the sequential row sweep of one `advance` step: after the
rows `1, ..., k` have been processed, every word outside the written region
(rows `1..k`, groups `0..GROUPS_PER_ROW-2`) still holds its start-of-step
value, and every written word packs the old current bit (bit 1) and the
next-generation bit (bit 0) of its 16 cells, both computed from the
start-of-step board. -/
def StepInv (b0 bk : Board) (k : Nat) : Prop :=
  (∀ i, (i / GROUPS_PER_ROW = 0 ∨ k < i / GROUPS_PER_ROW ∨
      i % GROUPS_PER_ROW = GROUPS_PER_ROW - 1) → bk i = b0 i) ∧
  (∀ ρ j, 1 ≤ ρ → ρ ≤ k → j < GROUPS_PER_ROW - 1 →
    bk (ρ * GROUPS_PER_ROW + j) < 2 ^ 64 ∧
    ∀ t, t < 16 → lane t (bk (ρ * GROUPS_PER_ROW + j)) =
      2 * colBit b0 ρ (16 * j + (15 - t)) + newBit b0 ρ (16 * j + (15 - t)))

/-!
## Theorems

### Lane arithmetic toolkit
-/

theorem lane_lt (j w : Nat) : lane j w < 16 := Nat.mod_lt _ (by norm_num)

theorem lane_zero (j : Nat) : lane j 0 = 0 := by simp [lane]

theorem lane_eq_shift (j w : Nat) : lane j w = (w >>> (4 * j)) % 16 := by
  rw [lane, Nat.shiftRight_eq_div_pow, Nat.pow_mul]

theorem lane_of_lt (j w : Nat) (h : w < 16 ^ j) : lane j w = 0 := by
  rw [lane, Nat.div_eq_of_lt h]

theorem shiftRight_land (a b k : Nat) : (a &&& b) >>> k = (a >>> k) &&& (b >>> k) := by
  apply Nat.eq_of_testBit_eq
  intro i
  simp [Nat.testBit_shiftRight, Nat.testBit_and]

theorem shiftRight_lor (a b k : Nat) : (a ||| b) >>> k = (a >>> k) ||| (b >>> k) := by
  apply Nat.eq_of_testBit_eq
  intro i
  simp [Nat.testBit_shiftRight, Nat.testBit_or]

theorem shiftRight_lxor (a b k : Nat) : (a ^^^ b) >>> k = (a >>> k) ^^^ (b >>> k) := by
  apply Nat.eq_of_testBit_eq
  intro i
  simp [Nat.testBit_shiftRight, Nat.testBit_xor]

theorem mod16_land (a b : Nat) : (a &&& b) % 16 = a % 16 &&& b % 16 := by
  have h16 : (16 : Nat) = 2 ^ 4 := by norm_num
  apply Nat.eq_of_testBit_eq
  intro i
  simp only [h16, Nat.testBit_mod_two_pow, Nat.testBit_and]
  cases a.testBit i <;> cases b.testBit i <;> cases Decidable.em (i < 4) <;>
    simp [*]

theorem mod16_lor (a b : Nat) : (a ||| b) % 16 = a % 16 ||| b % 16 := by
  have h16 : (16 : Nat) = 2 ^ 4 := by norm_num
  apply Nat.eq_of_testBit_eq
  intro i
  simp only [h16, Nat.testBit_mod_two_pow, Nat.testBit_or]
  cases a.testBit i <;> cases b.testBit i <;> cases Decidable.em (i < 4) <;>
    simp [*]

theorem mod16_lxor (a b : Nat) : (a ^^^ b) % 16 = a % 16 ^^^ b % 16 := by
  have h16 : (16 : Nat) = 2 ^ 4 := by norm_num
  apply Nat.eq_of_testBit_eq
  intro i
  simp only [h16, Nat.testBit_mod_two_pow, Nat.testBit_xor]
  cases a.testBit i <;> cases b.testBit i <;> cases Decidable.em (i < 4) <;>
    simp [*]

theorem lane_land (j a b : Nat) : lane j (a &&& b) = lane j a &&& lane j b := by
  rw [lane_eq_shift, lane_eq_shift, lane_eq_shift, shiftRight_land, mod16_land]

theorem lane_lor (j a b : Nat) : lane j (a ||| b) = lane j a ||| lane j b := by
  rw [lane_eq_shift, lane_eq_shift, lane_eq_shift, shiftRight_lor, mod16_lor]

theorem lane_lxor (j a b : Nat) : lane j (a ^^^ b) = lane j a ^^^ lane j b := by
  rw [lane_eq_shift, lane_eq_shift, lane_eq_shift, shiftRight_lxor, mod16_lxor]

theorem lane_shiftRight4 (j w : Nat) : lane j (w >>> 4) = lane (j + 1) w := by
  have h : (2 : Nat) ^ 4 * 16 ^ j = 16 ^ (j + 1) := by rw [Nat.pow_succ]; ring
  rw [lane, lane, Nat.shiftRight_eq_div_pow, Nat.div_div_eq_div_mul, h]

theorem lane_shiftRight60 (j w : Nat) : lane j (w >>> 60) = lane (j + 15) w := by
  have h : (2 : Nat) ^ 60 * 16 ^ j = 16 ^ (j + 15) := by
    rw [Nat.pow_add]
    norm_num
    ring
  rw [lane, lane, Nat.shiftRight_eq_div_pow, Nat.div_div_eq_div_mul, h]

theorem lane_mod_pow (i n w : Nat) (h : i < n) : lane i (w % 16 ^ n) = lane i w := by
  have hsplit : (16 : Nat) ^ n = 16 ^ i * 16 ^ (n - i) := by
    rw [← Nat.pow_add]
    congr 1
    omega
  have hdvd : (16 : Nat) ∣ 16 ^ (n - i) := dvd_pow_self 16 (by omega)
  rw [lane, lane, hsplit, Nat.mod_mul_right_div_self, Nat.mod_mod_of_dvd _ hdvd]

theorem lane_two_pow_64 (i w : Nat) (h : i < 16) : lane i (w % 2 ^ 64) = lane i w := by
  have : (2 : Nat) ^ 64 = 16 ^ 16 := by norm_num
  rw [this, lane_mod_pow i 16 w h]

theorem shiftLeft4_mod (w : Nat) : (w <<< 4) % 2 ^ 64 = 16 * (w % 16 ^ 15) := by
  have h1 : w <<< 4 = 16 * w := by rw [Nat.shiftLeft_eq]; ring
  have h2 : (2 : Nat) ^ 64 = 16 * 16 ^ 15 := by norm_num
  rw [h1, h2, Nat.mul_mod_mul_left]

theorem lane_mul16 (j v : Nat) (hj : 1 ≤ j) : lane j (16 * v) = lane (j - 1) v := by
  obtain ⟨i, rfl⟩ : ∃ i, j = i + 1 := ⟨j - 1, by omega⟩
  have h : (16 : Nat) ^ (i + 1) = 16 * 16 ^ i := by rw [Nat.pow_succ]; ring
  rw [lane, lane, h, Nat.mul_div_mul_left _ _ (by norm_num)]
  simp

theorem lane_shiftLeft4 (j w : Nat) (h1 : 1 ≤ j) (h2 : j < 16) :
    lane j ((w <<< 4) % 2 ^ 64) = lane (j - 1) w := by
  rw [shiftLeft4_mod, lane_mul16 _ _ h1, lane_mod_pow _ _ _ (by omega)]

theorem lane0_shiftLeft4 (w : Nat) : lane 0 ((w <<< 4) % 2 ^ 64) = 0 := by
  rw [shiftLeft4_mod, lane]
  simp [Nat.pow_zero, Nat.mul_mod_right]

theorem shiftLeft60_mod (w : Nat) : (w <<< 60) % 2 ^ 64 = 2 ^ 60 * (w % 16) := by
  have h1 : w <<< 60 = 2 ^ 60 * w := by rw [Nat.shiftLeft_eq]; ring
  have h2 : (2 : Nat) ^ 64 = 2 ^ 60 * 16 := by norm_num
  rw [h1, h2, Nat.mul_mod_mul_left]

theorem lane15_shiftLeft60 (w : Nat) : lane 15 ((w <<< 60) % 2 ^ 64) = lane 0 w := by
  have h : (16 : Nat) ^ 15 = 2 ^ 60 := by norm_num
  rw [shiftLeft60_mod, lane, lane, h, Nat.mul_div_cancel_left _ (by norm_num)]
  simp [Nat.mod_mod_of_dvd]

theorem lane_shiftLeft60 (j w : Nat) (h : j < 15) : lane j ((w <<< 60) % 2 ^ 64) = 0 := by
  have hsplit : (2 : Nat) ^ 60 = 16 ^ j * 16 ^ (15 - j) := by
    rw [← Nat.pow_add]
    have hj : j + (15 - j) = 15 := by omega
    rw [hj]
    norm_num
  have hdvd : (16 : Nat) ∣ 16 ^ (15 - j) * (w % 16) :=
    Dvd.dvd.mul_right (dvd_pow_self 16 (by omega)) _
  rw [shiftLeft60_mod, lane, hsplit, Nat.mul_assoc,
    Nat.mul_div_cancel_left _ (show 0 < (16:Nat) ^ j by positivity)]
  rw [Nat.mod_eq_zero_of_dvd hdvd]

theorem lane_shiftRight60_hi (j w : Nat) (hw : w < 2 ^ 64) (hj : 1 ≤ j) :
    lane j (w >>> 60) = 0 := by
  rw [lane_shiftRight60]
  apply lane_of_lt
  calc w < 2 ^ 64 := hw
    _ ≤ 16 ^ (j + 15) := by
        have : (16 : Nat) ^ 16 ≤ 16 ^ (j + 15) := Nat.pow_le_pow_right (by norm_num) (by omega)
        calc (2 : Nat) ^ 64 = 16 ^ 16 := by norm_num
          _ ≤ 16 ^ (j + 15) := this

theorem lane15_shiftRight4 (w : Nat) (hw : w < 2 ^ 64) : lane 15 (w >>> 4) = 0 := by
  rw [lane_shiftRight4]
  apply lane_of_lt
  calc w < 2 ^ 64 := hw
    _ = 16 ^ 16 := by norm_num

/-! ### `lanesVal`: building and decomposing words from 4-bit lanes -/

theorem lanesVal_congr (f g : Nat → Nat) (n : Nat) (h : ∀ j, j < n → f j = g j) :
    lanesVal f n = lanesVal g n := by
  induction n with
  | zero => rfl
  | succ n ih =>
    simp only [lanesVal]
    rw [ih (fun j hj => h j (by omega)), h n (by omega)]

theorem lanesVal_lt (f : Nat → Nat) (n : Nat) (h : ∀ j, j < n → f j < 16) :
    lanesVal f n < 16 ^ n := by
  induction n with
  | zero => simp [lanesVal]
  | succ n ih =>
    have h1 : lanesVal f n < 16 ^ n := ih (fun j hj => h j (by omega))
    have h2 : f n < 16 := h n (by omega)
    have h3 : f n * 16 ^ n ≤ 15 * 16 ^ n := Nat.mul_le_mul_right _ (by omega)
    have h4 : (16 : Nat) ^ (n + 1) = 16 ^ n + 15 * 16 ^ n := by rw [Nat.pow_succ]; ring
    simp only [lanesVal]
    omega

theorem lanesVal_add (f g : Nat → Nat) (n : Nat) :
    lanesVal f n + lanesVal g n = lanesVal (fun j => f j + g j) n := by
  induction n with
  | zero => rfl
  | succ n ih =>
    simp only [lanesVal]
    rw [← ih]
    ring

theorem lanesVal_sub (f g : Nat → Nat) (n : Nat) (h : ∀ j, j < n → g j ≤ f j) :
    lanesVal f n - lanesVal g n = lanesVal (fun j => f j - g j) n := by
  have key : lanesVal (fun j => f j - g j) n + lanesVal g n = lanesVal f n := by
    rw [lanesVal_add]
    exact lanesVal_congr _ _ _ (fun j hj => Nat.sub_add_cancel (h j hj))
  omega

theorem lanesVal_mono (f g : Nat → Nat) (n : Nat) (h : ∀ j, j < n → f j ≤ g j) :
    lanesVal f n ≤ lanesVal g n := by
  induction n with
  | zero => exact Nat.le_refl _
  | succ n ih =>
    simp only [lanesVal]
    have h1 := ih (fun j hj => h j (by omega))
    have h2 : f n * 16 ^ n ≤ g n * 16 ^ n := Nat.mul_le_mul_right _ (h n (by omega))
    omega

theorem lane_lanesVal (f : Nat → Nat) (n i : Nat) (hf : ∀ j, j < n → f j < 16)
    (hi : i < n) : lane i (lanesVal f n) = f i := by
  induction n with
  | zero => omega
  | succ n ih =>
    simp only [lanesVal]
    rcases Nat.lt_or_ge i n with hlt | hge
    · have hsplit : f n * 16 ^ n = f n * 16 ^ (n - i - 1) * 16 * 16 ^ i := by
        rw [Nat.mul_assoc, Nat.mul_assoc, ← Nat.pow_succ', ← Nat.pow_add]
        congr 2
        omega
      rw [lane, hsplit, Nat.add_mul_div_right _ _ (show 0 < (16:Nat) ^ i by positivity),
        Nat.add_mul_mod_self_right]
      exact ih (fun j hj => hf j (by omega)) hlt
    · have hie : i = n := by omega
      subst hie
      have hA : lanesVal f i < 16 ^ i := lanesVal_lt f i (fun j hj => hf j (by omega))
      rw [lane, Nat.add_mul_div_right _ _ (show 0 < (16:Nat) ^ i by positivity),
        Nat.div_eq_of_lt hA]
      have : f i < 16 := hf i (by omega)
      omega

theorem lanesVal_decomp (w n : Nat) (h : w < 16 ^ n) :
    lanesVal (fun j => lane j w) n = w := by
  induction n generalizing w with
  | zero => simp only [Nat.pow_zero, Nat.lt_one_iff] at h; simp [h, lanesVal, lane_zero]
  | succ n ih =>
    simp only [lanesVal]
    have hmod : w % 16 ^ n < 16 ^ n := Nat.mod_lt _ (by positivity)
    have hIH : lanesVal (fun j => lane j (w % 16 ^ n)) n = w % 16 ^ n := ih _ hmod
    have hcongr : lanesVal (fun j => lane j w) n = w % 16 ^ n := by
      rw [← hIH]
      exact lanesVal_congr _ _ _ (fun j hj => (lane_mod_pow j n w hj).symm)
    have hdivlt : w / 16 ^ n < 16 := by
      rw [Nat.div_lt_iff_lt_mul (show 0 < (16:Nat) ^ n by positivity)]
      have hpow : (16 : Nat) ^ (n + 1) = 16 * 16 ^ n := by rw [Nat.pow_succ]; ring
      omega
    have hlane : lane n w = w / 16 ^ n := by
      rw [lane, Nat.mod_eq_of_lt hdivlt]
    rw [hcongr, hlane]
    have := Nat.mod_add_div' w (16 ^ n)
    omega

theorem lane_add (a b : Nat) (ha : a < 2 ^ 64) (hb : b < 2 ^ 64)
    (h : ∀ j, j < 16 → lane j a + lane j b < 16) :
    a + b < 2 ^ 64 ∧ ∀ i, i < 16 → lane i (a + b) = lane i a + lane i b := by
  have h64 : (2 : Nat) ^ 64 = 16 ^ 16 := by norm_num
  have hda : lanesVal (fun j => lane j a) 16 = a := lanesVal_decomp a 16 (by omega)
  have hdb : lanesVal (fun j => lane j b) 16 = b := lanesVal_decomp b 16 (by omega)
  have hsum : a + b = lanesVal (fun j => lane j a + lane j b) 16 := by
    rw [← lanesVal_add, hda, hdb]
  constructor
  · rw [hsum, h64]
    exact lanesVal_lt _ 16 (fun j hj => h j hj)
  · intro i hi
    rw [hsum]
    exact lane_lanesVal _ 16 i (fun j hj => h j hj) hi

theorem lane_le_total (a b : Nat) (ha : a < 2 ^ 64) (hb : b < 2 ^ 64)
    (h : ∀ j, j < 16 → lane j b ≤ lane j a) : b ≤ a := by
  have hda : lanesVal (fun j => lane j a) 16 = a := lanesVal_decomp a 16 (by omega)
  have hdb : lanesVal (fun j => lane j b) 16 = b := lanesVal_decomp b 16 (by omega)
  calc b = lanesVal (fun j => lane j b) 16 := hdb.symm
    _ ≤ lanesVal (fun j => lane j a) 16 := lanesVal_mono _ _ 16 (fun j hj => h j hj)
    _ = a := hda

theorem lane_sub (a b : Nat) (ha : a < 2 ^ 64) (hb : b < 2 ^ 64)
    (h : ∀ j, j < 16 → lane j b ≤ lane j a) :
    ∀ i, i < 16 → lane i (a - b) = lane i a - lane i b := by
  intro i hi
  have hda : lanesVal (fun j => lane j a) 16 = a := lanesVal_decomp a 16 (by omega)
  have hdb : lanesVal (fun j => lane j b) 16 = b := lanesVal_decomp b 16 (by omega)
  have hdiff : a - b = lanesVal (fun j => lane j a - lane j b) 16 := by
    rw [← lanesVal_sub _ _ 16 (fun j hj => h j hj), hda, hdb]
  rw [hdiff]
  exact lane_lanesVal _ 16 i (fun j hj => by
    have := lane_lt j a
    omega) hi

/-! ### Single-bit extraction -/

theorem bitOf_land (k a b : Nat) : bitOf k (a &&& b) = bitOf k a &&& bitOf k b := by
  have h1 := Nat.testBit_and a b k
  rw [Nat.testBit_to_div_mod, Nat.testBit_to_div_mod, Nat.testBit_to_div_mod] at h1
  simp only [bitOf]
  have ha : a / 2 ^ k % 2 = 0 ∨ a / 2 ^ k % 2 = 1 := Nat.mod_two_eq_zero_or_one _
  have hb : b / 2 ^ k % 2 = 0 ∨ b / 2 ^ k % 2 = 1 := Nat.mod_two_eq_zero_or_one _
  have hab : (a &&& b) / 2 ^ k % 2 = 0 ∨ (a &&& b) / 2 ^ k % 2 = 1 :=
    Nat.mod_two_eq_zero_or_one _
  rcases ha with ha | ha <;> rcases hb with hb | hb <;> rcases hab with hab | hab <;>
    simp [ha, hb, hab] at h1 ⊢

theorem bitOf_shiftRight (k s w : Nat) : bitOf k (w >>> s) = bitOf (k + s) w := by
  simp only [bitOf, Nat.shiftRight_eq_div_pow, Nat.div_div_eq_div_mul, ← Nat.pow_add]
  rw [Nat.add_comm s k]

theorem lane_div_mod (j m w : Nat) (hm : m < 4) :
    lane j w / 2 ^ m % 2 = bitOf (4 * j + m) w := by
  have hsplit : (16 : Nat) = 2 ^ m * 2 ^ (4 - m) := by
    rw [← Nat.pow_add]
    have : m + (4 - m) = 4 := by omega
    rw [this]
  have hdvd : (2 : Nat) ∣ 2 ^ (4 - m) := dvd_pow_self 2 (by omega)
  have hpow : (16 : Nat) ^ j * 2 ^ m = 2 ^ (4 * j + m) := by
    have h16 : (16 : Nat) ^ j = 2 ^ (4 * j) := by
      rw [show (16 : Nat) = 2 ^ 4 by norm_num, ← Nat.pow_mul]
    rw [h16, ← Nat.pow_add]
  have key : ∀ x, x % 16 / 2 ^ m % 2 = x / 2 ^ m % 2 := by
    intro x
    conv_lhs => rw [hsplit]
    rw [Nat.mod_mul_right_div_self, Nat.mod_mod_of_dvd _ hdvd]
  calc lane j w / 2 ^ m % 2 = w / 16 ^ j / 2 ^ m % 2 := by rw [lane, key]
    _ = w / (16 ^ j * 2 ^ m) % 2 := by rw [Nat.div_div_eq_div_mul]
    _ = w / 2 ^ (4 * j + m) % 2 := by rw [hpow]
    _ = bitOf (4 * j + m) w := rfl

theorem lane_mod2 (j w : Nat) : lane j w % 2 = bitOf (4 * j) w := by
  have := lane_div_mod j 0 w (by omega)
  simpa using this

theorem lane_mask_low (j w : Nat) (hj : j < 16) :
    lane j (w &&& LOW_BIT_NYBBLE_BITMASK) = lane j w % 2 := by
  have hlow : lane j LOW_BIT_NYBBLE_BITMASK = 1 := by
    have : ∀ j, j < 16 → lane j LOW_BIT_NYBBLE_BITMASK = 1 := by decide
    exact this j hj
  rw [lane_land, hlow, Nat.and_one_is_mod]

theorem lane_mask_low_hi (j w : Nat) (hj : 16 ≤ j) :
    lane j (w &&& LOW_BIT_NYBBLE_BITMASK) = 0 := by
  have hlow : lane j LOW_BIT_NYBBLE_BITMASK = 0 := by
    apply lane_of_lt
    calc LOW_BIT_NYBBLE_BITMASK < 16 ^ 16 := by norm_num [LOW_BIT_NYBBLE_BITMASK]
      _ ≤ 16 ^ j := Nat.pow_le_pow_right (by norm_num) hj
  rw [lane_land, hlow]
  simp

theorem lane_TOP (j : Nat) (hj : j < 16) : lane j TOP_NYBBLET_BITTMASK = 12 := by
  have : ∀ j, j < 16 → lane j TOP_NYBBLET_BITTMASK = 12 := by decide
  exact this j hj

theorem mask_low_lt (w : Nat) : w &&& LOW_BIT_NYBBLE_BITMASK < 2 ^ 64 := by
  have h1 : w &&& LOW_BIT_NYBBLE_BITMASK ≤ LOW_BIT_NYBBLE_BITMASK := Nat.and_le_right
  have h2 : LOW_BIT_NYBBLE_BITMASK < 2 ^ 64 := by norm_num [LOW_BIT_NYBBLE_BITMASK]
  omega

theorem lane_mask_low_le_one (j w : Nat) : lane j (w &&& LOW_BIT_NYBBLE_BITMASK) ≤ 1 := by
  rcases Nat.lt_or_ge j 16 with hj | hj
  · rw [lane_mask_low j w hj]
    omega
  · rw [lane_mask_low_hi j w hj]
    omega

theorem lane_shiftRight_mask (j w : Nat) (hj : j < 16) :
    lane j ((w >>> 1) &&& LOW_BIT_NYBBLE_BITMASK) = lane j w / 2 % 2 := by
  rw [lane_mask_low j _ hj, lane_mod2, bitOf_shiftRight]
  rw [← lane_div_mod j 1 w (by omega)]
  norm_num

/-! ### Collapse of the branch-free rule to a per-lane table -/

theorem rule_collapse (y t : Nat) (ht : t < 16) :
    lane t ((y &&& (y >>> 2)) &&& ((y &&& (y >>> 2)) >>> 1) &&& LOW_BIT_NYBBLE_BITMASK) =
      if lane t y = 15 then 1 else 0 := by
  rw [lane_mask_low _ _ ht, lane_mod2, bitOf_land, bitOf_land, bitOf_shiftRight,
    bitOf_shiftRight, bitOf_land, bitOf_shiftRight]
  have e0 : bitOf (4 * t) y = lane t y % 2 := (lane_mod2 t y).symm
  have e1 : bitOf (4 * t + 1) y = lane t y / 2 ^ 1 % 2 := (lane_div_mod t 1 y (by omega)).symm
  have e2 : bitOf (4 * t + 2) y = lane t y / 2 ^ 2 % 2 := (lane_div_mod t 2 y (by omega)).symm
  have e3 : bitOf (4 * t + 1 + 2) y = lane t y / 2 ^ 3 % 2 := by
    have h13 : 4 * t + 1 + 2 = 4 * t + 3 := by omega
    rw [h13]
    exact (lane_div_mod t 3 y (by omega)).symm
  rw [e0, e1, e2, e3]
  have hv : lane t y < 16 := lane_lt t y
  set v := lane t y with hvdef
  interval_cases v <;> decide

/-- Per-lane specification of `neighborSumToStateBit`: on words whose lanes
satisfy the kernel's invariants (self bit at most 1 and contained in the sum,
sum at most 9) every output lane is the Life rule applied to that lane's sum
and self bit, independently of all other lanes. -/
theorem neighborSum_lane (sum gv : Nat) (hsum : sum < 2 ^ 64) (hgv : gv < 2 ^ 64)
    (h : ∀ j, j < 16 → lane j gv ≤ 1 ∧ lane j gv ≤ lane j sum ∧ lane j sum ≤ 9) :
    ∀ t, t < 16 → lane t (neighborSumToStateBit sum gv) = ruleBit (lane t sum) (lane t gv) := by
  intro t ht
  have hle : gv ≤ sum := lane_le_total sum gv hsum hgv (fun j hj => (h j hj).2.1)
  have hs1 : (2 ^ 64 + sum - gv) % 2 ^ 64 = sum - gv := by
    have h1 : 2 ^ 64 + sum - gv = 2 ^ 64 + (sum - gv) := by omega
    have h2 : sum - gv < 2 ^ 64 := by omega
    rw [h1, Nat.add_mod_left, Nat.mod_eq_of_lt h2]
  show lane t ((((((2 ^ 64 + sum - gv) % 2 ^ 64) ||| gv) ^^^ TOP_NYBBLET_BITTMASK) &&&
      ((((2 ^ 64 + sum - gv) % 2 ^ 64 ||| gv) ^^^ TOP_NYBBLET_BITTMASK) >>> 2) &&&
      (((((2 ^ 64 + sum - gv) % 2 ^ 64 ||| gv) ^^^ TOP_NYBBLET_BITTMASK) &&&
        ((((2 ^ 64 + sum - gv) % 2 ^ 64 ||| gv) ^^^ TOP_NYBBLET_BITTMASK) >>> 2)) >>> 1)) &&&
      LOW_BIT_NYBBLE_BITMASK) = ruleBit (lane t sum) (lane t gv)
  rw [hs1]
  rw [rule_collapse _ t ht]
  have hlsub : lane t (sum - gv) = lane t sum - lane t gv :=
    lane_sub sum gv hsum hgv (fun j hj => (h j hj).2.1) t ht
  rw [lane_lxor, lane_lor, hlsub, lane_TOP t ht]
  obtain ⟨hg1, hgs, hs9⟩ := h t ht
  set a := lane t sum with hadef
  set b := lane t gv with hbdef
  have ha9 : a ≤ 9 := hs9
  have hb1 : b ≤ 1 := hg1
  have hba : b ≤ a := hgs
  clear hadef hbdef hlsub hs1 hle
  interval_cases a <;> interval_cases b <;> decide

/-! ### Per-lane characterization of the column-sum extraction -/

theorem getColSums_val_lane (b : Board) (gi t : Nat) (ht : t < 16) :
    lane t ((getColSumsForGroup b gi).2) = lane t (b gi) % 2 := by
  show lane t (b gi &&& LOW_BIT_NYBBLE_BITMASK) = lane t (b gi) % 2
  exact lane_mask_low t _ ht

theorem getColSums_lane (b : Board) (gi t : Nat) (ht : t < 16) :
    lane t ((getColSumsForGroup b gi).1) =
      lane t (b gi) % 2 +
        (lane t (b (gi - GROUPS_PER_ROW)) / 2 % 2 + lane t (b (gi + GROUPS_PER_ROW)) % 2) := by
  show lane t ((b gi &&& LOW_BIT_NYBBLE_BITMASK) +
      (((b (gi - GROUPS_PER_ROW) >>> 1) &&& LOW_BIT_NYBBLE_BITMASK) +
        (b (gi + GROUPS_PER_ROW) &&& LOW_BIT_NYBBLE_BITMASK))) = _
  have htop : ∀ j, j < 16 → lane j ((b (gi - GROUPS_PER_ROW) >>> 1) &&& LOW_BIT_NYBBLE_BITMASK) =
      lane j (b (gi - GROUPS_PER_ROW)) / 2 % 2 := fun j hj => lane_shiftRight_mask j _ hj
  have hinner := lane_add (((b (gi - GROUPS_PER_ROW) >>> 1) &&& LOW_BIT_NYBBLE_BITMASK))
    ((b (gi + GROUPS_PER_ROW) &&& LOW_BIT_NYBBLE_BITMASK)) (mask_low_lt _) (mask_low_lt _)
    (fun j hj => by
      have h1 := lane_mask_low_le_one j (b (gi - GROUPS_PER_ROW) >>> 1)
      have h2 := lane_mask_low_le_one j (b (gi + GROUPS_PER_ROW))
      omega)
  have houter := lane_add (b gi &&& LOW_BIT_NYBBLE_BITMASK)
    (((b (gi - GROUPS_PER_ROW) >>> 1) &&& LOW_BIT_NYBBLE_BITMASK) +
      (b (gi + GROUPS_PER_ROW) &&& LOW_BIT_NYBBLE_BITMASK)) (mask_low_lt _) hinner.1
    (fun j hj => by
      have h1 := lane_mask_low_le_one j (b gi)
      have h2 := lane_mask_low_le_one j (b (gi - GROUPS_PER_ROW) >>> 1)
      have h3 := lane_mask_low_le_one j (b (gi + GROUPS_PER_ROW))
      have h4 := hinner.2 j hj
      omega)
  rw [houter.2 t ht, hinner.2 t ht, lane_mask_low t _ ht, htop t ht, lane_mask_low t _ ht]

theorem getColSums_lt (b : Board) (gi : Nat) : (getColSumsForGroup b gi).1 < 2 ^ 64 := by
  show (b gi &&& LOW_BIT_NYBBLE_BITMASK) +
      (((b (gi - GROUPS_PER_ROW) >>> 1) &&& LOW_BIT_NYBBLE_BITMASK) +
        (b (gi + GROUPS_PER_ROW) &&& LOW_BIT_NYBBLE_BITMASK)) < 2 ^ 64
  have h1 : b gi &&& LOW_BIT_NYBBLE_BITMASK ≤ LOW_BIT_NYBBLE_BITMASK := Nat.and_le_right
  have h2 : (b (gi - GROUPS_PER_ROW) >>> 1) &&& LOW_BIT_NYBBLE_BITMASK ≤
      LOW_BIT_NYBBLE_BITMASK := Nat.and_le_right
  have h3 : b (gi + GROUPS_PER_ROW) &&& LOW_BIT_NYBBLE_BITMASK ≤ LOW_BIT_NYBBLE_BITMASK :=
    Nat.and_le_right
  have h4 : 3 * LOW_BIT_NYBBLE_BITMASK < 2 ^ 64 := by norm_num [LOW_BIT_NYBBLE_BITMASK]
  omega

theorem getColSums_lane_le (b : Board) (gi t : Nat) (ht : t < 16) :
    lane t ((getColSumsForGroup b gi).1) ≤ 3 := by
  rw [getColSums_lane b gi t ht]
  have h1 : lane t (b gi) % 2 ≤ 1 := by omega
  have h2 : lane t (b (gi - GROUPS_PER_ROW)) / 2 % 2 ≤ 1 := by omega
  have h3 : lane t (b (gi + GROUPS_PER_ROW)) % 2 ≤ 1 := by omega
  omega

theorem getColSums_self_le (b : Board) (gi t : Nat) (ht : t < 16) :
    lane t ((getColSumsForGroup b gi).2) ≤ lane t ((getColSumsForGroup b gi).1) := by
  rw [getColSums_val_lane b gi t ht, getColSums_lane b gi t ht]
  omega

theorem getColSums_val_lt (b : Board) (gi : Nat) : (getColSumsForGroup b gi).2 < 2 ^ 64 :=
  mask_low_lt _

/-! ### Per-lane characterization of the neighbour assembly -/

theorem createLeft_lane_low (cs ps t : Nat) (hcs : cs < 2 ^ 64) (ht : t < 15) :
    lane t (createLeftNeighborsFromColSums cs ps) = lane (t + 1) cs := by
  show lane t ((cs >>> 4) ||| ((ps <<< 60) % 2 ^ 64)) = lane (t + 1) cs
  rw [lane_lor, lane_shiftLeft60 t ps ht, Nat.or_zero, lane_shiftRight4]

theorem createLeft_lane_15 (cs ps : Nat) (hcs : cs < 2 ^ 64) :
    lane 15 (createLeftNeighborsFromColSums cs ps) = lane 0 ps := by
  show lane 15 ((cs >>> 4) ||| ((ps <<< 60) % 2 ^ 64)) = lane 0 ps
  rw [lane_lor, lane15_shiftRight4 cs hcs, lane15_shiftLeft60, Nat.zero_or]

theorem createRight_lane_hi (cs ns t : Nat) (hns : ns < 2 ^ 64) (h1 : 1 ≤ t) (h2 : t < 16) :
    lane t (createRightNeighborsFromColSums cs ns) = lane (t - 1) cs := by
  show lane t (((cs <<< 4) % 2 ^ 64) ||| (ns >>> 60)) = lane (t - 1) cs
  rw [lane_lor, lane_shiftRight60_hi t ns hns h1, Nat.or_zero, lane_shiftLeft4 t cs h1 h2]

theorem createRight_lane_0 (cs ns : Nat) (hns : ns < 2 ^ 64) :
    lane 0 (createRightNeighborsFromColSums cs ns) = lane 15 ns := by
  show lane 0 (((cs <<< 4) % 2 ^ 64) ||| (ns >>> 60)) = lane 15 ns
  rw [lane_lor, lane0_shiftLeft4, lane_shiftRight60, Nat.zero_or]

theorem createLeft_lt (cs ps : Nat) (hcs : cs < 2 ^ 64) :
    createLeftNeighborsFromColSums cs ps < 2 ^ 64 := by
  show (cs >>> 4) ||| ((ps <<< 60) % 2 ^ 64) < 2 ^ 64
  apply Nat.or_lt_two_pow
  · have hd : cs >>> 4 ≤ cs := by
      rw [Nat.shiftRight_eq_div_pow]
      exact Nat.div_le_self _ _
    omega
  · exact Nat.mod_lt _ (by positivity)

theorem createRight_lt (cs ns : Nat) (hns : ns < 2 ^ 64) :
    createRightNeighborsFromColSums cs ns < 2 ^ 64 := by
  show ((cs <<< 4) % 2 ^ 64) ||| (ns >>> 60) < 2 ^ 64
  apply Nat.or_lt_two_pow
  · exact Nat.mod_lt _ (by positivity)
  · have hd : ns >>> 60 ≤ ns := by
      rw [Nat.shiftRight_eq_div_pow]
      exact Nat.div_le_self _ _
    omega

theorem createLeft_lane_le (cs ps t : Nat) (hcs : cs < 2 ^ 64)
    (hCl : ∀ u, u < 16 → lane u cs ≤ 3) (hPl : ∀ u, u < 16 → lane u ps ≤ 3) (ht : t < 16) :
    lane t (createLeftNeighborsFromColSums cs ps) ≤ 3 := by
  rcases Nat.lt_or_ge t 15 with h15 | h15
  · rw [createLeft_lane_low cs ps t hcs h15]
    exact hCl (t + 1) (by omega)
  · have ht15 : t = 15 := by omega
    subst ht15
    rw [createLeft_lane_15 cs ps hcs]
    exact hPl 0 (by omega)

theorem createRight_lane_le (cs ns t : Nat) (hns : ns < 2 ^ 64)
    (hCl : ∀ u, u < 16 → lane u cs ≤ 3) (hNl : ∀ u, u < 16 → lane u ns ≤ 3) (ht : t < 16) :
    lane t (createRightNeighborsFromColSums cs ns) ≤ 3 := by
  rcases Nat.lt_or_ge 0 t with h0 | h0
  · rw [createRight_lane_hi cs ns t hns (by omega) ht]
    exact hCl (t - 1) (by omega)
  · have ht0 : t = 0 := by omega
    subst ht0
    rw [createRight_lane_0 cs ns hns]
    exact hNl 15 (by omega)

/-- Assembling `curr + left + right` never carries across a lane boundary and
never overflows the 64-bit word, and every assembled lane is at most 9. -/
theorem assembled_lane (csC csP csN : Nat) (hC : csC < 2 ^ 64) (hP : csP < 2 ^ 64)
    (hN : csN < 2 ^ 64) (hCl : ∀ u, u < 16 → lane u csC ≤ 3)
    (hPl : ∀ u, u < 16 → lane u csP ≤ 3) (hNl : ∀ u, u < 16 → lane u csN ≤ 3) :
    csC + createLeftNeighborsFromColSums csC csP + createRightNeighborsFromColSums csC csN
        < 2 ^ 64 ∧
      (∀ t, t < 16 →
        lane t (csC + createLeftNeighborsFromColSums csC csP +
            createRightNeighborsFromColSums csC csN) =
          lane t csC + lane t (createLeftNeighborsFromColSums csC csP) +
            lane t (createRightNeighborsFromColSums csC csN)) ∧
      (∀ t, t < 16 →
        lane t (csC + createLeftNeighborsFromColSums csC csP +
            createRightNeighborsFromColSums csC csN) ≤ 9) := by
  have hLlt := createLeft_lt csC csP hC
  have hRlt := createRight_lt csC csN hN
  have hLl := fun t ht => createLeft_lane_le csC csP t hC hCl hPl ht
  have hRl := fun t ht => createRight_lane_le csC csN t hN hCl hNl ht
  have h1 := lane_add csC (createLeftNeighborsFromColSums csC csP) hC hLlt
    (fun u hu => by have := hCl u hu; have := hLl u hu; omega)
  have h2 := lane_add (csC + createLeftNeighborsFromColSums csC csP)
    (createRightNeighborsFromColSums csC csN) h1.1 hRlt
    (fun u hu => by
      have ha := h1.2 u hu
      have := hCl u hu
      have := hLl u hu
      have := hRl u hu
      omega)
  refine ⟨h2.1, fun t ht => ?_, fun t ht => ?_⟩
  · rw [h2.2 t ht, h1.2 t ht]
  · rw [h2.2 t ht, h1.2 t ht]
    have := hCl t ht
    have := hLl t ht
    have := hRl t ht
    omega

theorem ruleBit_le_one (sum self : Nat) : ruleBit sum self ≤ 1 := by
  unfold ruleBit
  split <;> omega

theorem or_double_small (a c : Nat) (ha : a ≤ 1) (hc : c ≤ 1) : 2 * a ||| c = 2 * a + c := by
  interval_cases a <;> interval_cases c <;> decide

theorem lane_double (x : Nat) (hx : x < 2 ^ 64) (hl : ∀ j, j < 16 → lane j x ≤ 7) :
    2 * x < 2 ^ 64 ∧ ∀ t, t < 16 → lane t (2 * x) = 2 * lane t x := by
  have h := lane_add x x hx hx (fun j hj => by have := hl j hj; omega)
  have hxx : x + x = 2 * x := by ring
  rw [hxx] at h
  exact ⟨h.1, fun t ht => by rw [h.2 t ht]; ring⟩

/-- The column sums of a group, expressed through the per-cell views: lane `t`
of the column-sum word of group `(row, j)` is the `vertSum` of the cell at
column `16 j + (15 - t)`. -/
theorem getColSums_lane_vert (b : Board) (row j t : Nat) (hrow : 1 ≤ row) (ht : t < 16) :
    lane t ((getColSumsForGroup b (row * GROUPS_PER_ROW + j)).1) =
      vertSum b row (16 * j + (15 - t)) := by
  have hGPR : GROUPS_PER_ROW = 129 := rfl
  rw [getColSums_lane _ _ t ht]
  unfold vertSum colBit colPrevBit
  have hdiv : (16 * j + (15 - t)) / 16 = j := by omega
  have hmod : (16 * j + (15 - t)) % 16 = 15 - t := by omega
  have h15 : 15 - (15 - t) = t := by omega
  rw [hdiv, hmod, h15]
  have e1 : row * GROUPS_PER_ROW + j - GROUPS_PER_ROW = (row - 1) * GROUPS_PER_ROW + j := by
    rw [hGPR]
    omega
  have e2 : row * GROUPS_PER_ROW + j + GROUPS_PER_ROW = (row + 1) * GROUPS_PER_ROW + j := by
    rw [hGPR]
    omega
  rw [e1, e2]
  ring

/-- The self lanes of a group, expressed through the per-cell view. -/
theorem getColSums_lane_self (b : Board) (row j t : Nat) (ht : t < 16) :
    lane t ((getColSumsForGroup b (row * GROUPS_PER_ROW + j)).2) =
      colBit b row (16 * j + (15 - t)) := by
  rw [getColSums_val_lane _ _ t ht]
  unfold colBit
  have hdiv : (16 * j + (15 - t)) / 16 = j := by omega
  have hmod : (16 * j + (15 - t)) % 16 = 15 - t := by omega
  have h15 : 15 - (15 - t) = t := by omega
  rw [hdiv, hmod, h15]

theorem colBit_le_one (b : Board) (row col : Nat) : colBit b row col ≤ 1 := by
  unfold colBit
  omega

/-- Lane `t` of the word the group loop writes for group `(row, j)`: the old
current bit of the cell moves to bit 1, and bit 0 becomes the Life rule
applied to the cell's assembled 3x3 sum — all computed from the board as it
stood when the row started. -/
theorem rowNewWord_lane (b : Board) (row j t : Nat) (hrow : 1 ≤ row)
    (hj : j ≤ GROUPS_PER_ROW - 2) (ht : t < 16) :
    lane t (rowNewWord b (row * GROUPS_PER_ROW) j) =
      2 * colBit b row (16 * j + (15 - t)) +
        ruleBit (nbhdSum b row (16 * j + (15 - t))) (colBit b row (16 * j + (15 - t))) := by
  have hGPR : GROUPS_PER_ROW = 129 := rfl
  simp only [rowNewWord]
  set gi := row * GROUPS_PER_ROW + j with hgi
  set ccs := (getColSumsForGroup b gi).1 with hccs
  set gv := (getColSumsForGroup b gi).2 with hgvdef
  set pcs := (if j = 0 then 0 else (getColSumsForGroup b (gi - 1)).1) with hpcs
  set ncs := (getColSumsForGroup b (gi + 1)).1 with hncs
  -- basic bounds
  have hC : ccs < 2 ^ 64 := getColSums_lt b gi
  have hCl : ∀ u, u < 16 → lane u ccs ≤ 3 := fun u hu => getColSums_lane_le b gi u hu
  have hP : pcs < 2 ^ 64 := by
    rw [hpcs]
    split
    · positivity
    · exact getColSums_lt b (gi - 1)
  have hPl : ∀ u, u < 16 → lane u pcs ≤ 3 := by
    intro u hu
    rw [hpcs]
    split
    · rw [lane_zero]
      omega
    · exact getColSums_lane_le b (gi - 1) u hu
  have hN : ncs < 2 ^ 64 := getColSums_lt b (gi + 1)
  have hNl : ∀ u, u < 16 → lane u ncs ≤ 3 := fun u hu => getColSums_lane_le b (gi + 1) u hu
  have asm := assembled_lane ccs pcs ncs hC hP hN hCl hPl hNl
  have hnbmod : (ccs + createLeftNeighborsFromColSums ccs pcs +
      createRightNeighborsFromColSums ccs ncs) % 2 ^ 64 =
      ccs + createLeftNeighborsFromColSums ccs pcs +
        createRightNeighborsFromColSums ccs ncs := Nat.mod_eq_of_lt asm.1
  rw [hnbmod]
  set nbraw := ccs + createLeftNeighborsFromColSums ccs pcs +
    createRightNeighborsFromColSums ccs ncs with hnbraw
  -- the rule evaluator, per lane
  have hgv_le : ∀ u, u < 16 → lane u gv ≤ 1 := by
    intro u hu
    rw [hgvdef, getColSums_val_lane b gi u hu]
    omega
  have hout : ∀ u, u < 16 →
      lane u (neighborSumToStateBit nbraw gv) = ruleBit (lane u nbraw) (lane u gv) := by
    apply neighborSum_lane nbraw gv asm.1 (getColSums_val_lt b gi)
    intro u hu
    refine ⟨hgv_le u hu, ?_, asm.2.2 u hu⟩
    rw [asm.2.1 u hu]
    have hself : lane u gv ≤ lane u ccs := getColSums_self_le b gi u hu
    omega
  -- semantic values of the lanes
  have hccs_t : ∀ u, u < 16 → lane u ccs = vertSum b row (16 * j + (15 - u)) := by
    intro u hu
    rw [hccs, hgi]
    exact getColSums_lane_vert b row j u hrow hu
  have hgv_t : lane t gv = colBit b row (16 * j + (15 - t)) := by
    rw [hgvdef, hgi]
    exact getColSums_lane_self b row j t ht
  have hleft : lane t (createLeftNeighborsFromColSums ccs pcs) =
      (if 16 * j + (15 - t) = 0 then 0 else vertSum b row (16 * j + (15 - t) - 1)) := by
    rcases Nat.lt_or_ge t 15 with h15 | h15
    · rw [createLeft_lane_low ccs pcs t hC h15, hccs_t (t + 1) (by omega)]
      have hne : ¬(16 * j + (15 - t) = 0) := by omega
      rw [if_neg hne]
      have harg : 16 * j + (15 - (t + 1)) = 16 * j + (15 - t) - 1 := by omega
      rw [harg]
    · have ht15 : t = 15 := by omega
      subst ht15
      rw [createLeft_lane_15 ccs pcs hC]
      rcases Nat.eq_zero_or_pos j with hj0 | hjpos
      · subst hj0
        rw [hpcs, if_pos rfl, lane_zero]
        norm_num
      · have hne : ¬(16 * j + (15 - 15) = 0) := by omega
        rw [if_neg hne, hpcs, if_neg (by omega)]
        have hgi1 : gi - 1 = row * GROUPS_PER_ROW + (j - 1) := by
          rw [hgi, hGPR]
          omega
        rw [hgi1, getColSums_lane_vert b row (j - 1) 0 hrow (by omega)]
        have harg : 16 * (j - 1) + (15 - 0) = 16 * j + (15 - 15) - 1 := by omega
        rw [harg]
  have hright : lane t (createRightNeighborsFromColSums ccs ncs) =
      vertSum b row (16 * j + (15 - t) + 1) := by
    rcases Nat.eq_zero_or_pos t with ht0 | htpos
    · subst ht0
      rw [createRight_lane_0 ccs ncs hN, hncs]
      have hgi1 : gi + 1 = row * GROUPS_PER_ROW + (j + 1) := by
        rw [hgi]
        omega
      rw [hgi1, getColSums_lane_vert b row (j + 1) 15 hrow (by omega)]
      have harg : 16 * (j + 1) + (15 - 15) = 16 * j + (15 - 0) + 1 := by omega
      rw [harg]
    · rw [createRight_lane_hi ccs ncs t hN htpos ht, hccs_t (t - 1) (by omega)]
      have harg : 16 * j + (15 - (t - 1)) = 16 * j + (15 - t) + 1 := by omega
      rw [harg]
  -- assembling the written word
  rw [lane_lor]
  have hXle : gv &&& LOW_BIT_NYBBLE_BITMASK ≤ LOW_BIT_NYBBLE_BITMASK := Nat.and_le_right
  have hXlt : gv &&& LOW_BIT_NYBBLE_BITMASK < 2 ^ 64 := mask_low_lt gv
  have hshift : ((gv &&& LOW_BIT_NYBBLE_BITMASK) <<< 1) % 2 ^ 64 =
      2 * (gv &&& LOW_BIT_NYBBLE_BITMASK) := by
    rw [Nat.shiftLeft_eq]
    have h2 : (gv &&& LOW_BIT_NYBBLE_BITMASK) * 2 ^ 1 = 2 * (gv &&& LOW_BIT_NYBBLE_BITMASK) := by
      ring
    rw [h2]
    apply Nat.mod_eq_of_lt
    have hbound : 2 * LOW_BIT_NYBBLE_BITMASK < 2 ^ 64 := by norm_num [LOW_BIT_NYBBLE_BITMASK]
    omega
  rw [hshift]
  have hdouble := lane_double (gv &&& LOW_BIT_NYBBLE_BITMASK) hXlt
    (fun u hu => by have := lane_mask_low_le_one u gv; omega)
  rw [hdouble.2 t ht, lane_mask_low t gv ht, lane_mask_low t _ ht, hout t ht]
  have hrule_le : ruleBit (lane t nbraw) (lane t gv) ≤ 1 := ruleBit_le_one _ _
  have hrule_mod : ruleBit (lane t nbraw) (lane t gv) % 2 =
      ruleBit (lane t nbraw) (lane t gv) := Nat.mod_eq_of_lt (by omega)
  rw [hrule_mod]
  have hgvmod : lane t gv % 2 = lane t gv := Nat.mod_eq_of_lt (by have := hgv_le t ht; omega)
  rw [hgvmod]
  rw [or_double_small _ _ (hgv_le t ht) hrule_le]
  -- replace the raw lanes by their per-cell views
  have hnb_t : lane t nbraw = nbhdSum b row (16 * j + (15 - t)) := by
    rw [asm.2.1 t ht, hccs_t t ht, hleft, hright]
    unfold nbhdSum
    ring
  rw [hnb_t, hgv_t]

theorem rowNewWord_lt (b : Board) (rsi j : Nat) : rowNewWord b rsi j < 2 ^ 64 := by
  simp only [rowNewWord]
  apply Nat.or_lt_two_pow
  · exact Nat.mod_lt _ (by positivity)
  · exact mask_low_lt _

theorem rowNewWord_lane_lt4 (b : Board) (row j t : Nat) (hrow : 1 ≤ row)
    (hj : j ≤ GROUPS_PER_ROW - 2) (ht : t < 16) :
    lane t (rowNewWord b (row * GROUPS_PER_ROW) j) < 4 := by
  rw [rowNewWord_lane b row j t hrow hj ht]
  have h1 := colBit_le_one b row (16 * j + (15 - t))
  have h2 := ruleBit_le_one (nbhdSum b row (16 * j + (15 - t))) (colBit b row (16 * j + (15 - t)))
  omega

/-! ### The group loop of `runRow` as a closed-form board update -/

theorem getColSums_rowPartial (b : Board) (row k g : Nat) (hrow : 1 ≤ row) (hkg : k ≤ g)
    (hg : g ≤ GROUPS_PER_ROW - 1) :
    getColSumsForGroup (rowPartial b (row * GROUPS_PER_ROW) k) (row * GROUPS_PER_ROW + g) =
      getColSumsForGroup b (row * GROUPS_PER_ROW + g) := by
  have hGPR : GROUPS_PER_ROW = 129 := rfl
  unfold getColSumsForGroup
  have h1 : rowPartial b (row * GROUPS_PER_ROW) k (row * GROUPS_PER_ROW + g) =
      b (row * GROUPS_PER_ROW + g) := by
    unfold rowPartial
    rw [if_neg]
    omega
  have h2 : rowPartial b (row * GROUPS_PER_ROW) k
      (row * GROUPS_PER_ROW + g - GROUPS_PER_ROW) =
      b (row * GROUPS_PER_ROW + g - GROUPS_PER_ROW) := by
    unfold rowPartial
    rw [if_neg]
    rw [hGPR]
    omega
  have h3 : rowPartial b (row * GROUPS_PER_ROW) k
      (row * GROUPS_PER_ROW + g + GROUPS_PER_ROW) =
      b (row * GROUPS_PER_ROW + g + GROUPS_PER_ROW) := by
    unfold rowPartial
    rw [if_neg]
    rw [hGPR]
    omega
  rw [h1, h2, h3]

theorem rowPartial_snoc (b : Board) (rsi k : Nat) :
    (fun i => if i = rsi + k then rowNewWord b rsi k else rowPartial b rsi k i) =
      rowPartial b rsi (k + 1) := by
  funext i
  rcases Decidable.em (i = rsi + k) with he | he
  · subst he
    rw [if_pos rfl]
    unfold rowPartial
    rw [if_pos (by omega)]
    congr 1
    omega
  · rw [if_neg he]
    unfold rowPartial
    by_cases hc : rsi ≤ i ∧ i < rsi + k
    · rw [if_pos hc, if_pos (by omega)]
    · rw [if_neg hc, if_neg (by omega)]

theorem runRowStep_advances (b : Board) (row k : Nat) (hrow : 1 ≤ row)
    (hk : k + 1 ≤ GROUPS_PER_ROW - 1) :
    runRowStep (row * GROUPS_PER_ROW) (rowStateAt b (row * GROUPS_PER_ROW) k) (1 + k) =
      rowStateAt b (row * GROUPS_PER_ROW) (k + 1) := by
  have hGPR : GROUPS_PER_ROW = 129 := rfl
  have hfetch : getColSumsForGroup (rowPartial b (row * GROUPS_PER_ROW) k)
      (row * GROUPS_PER_ROW + (1 + k)) =
      getColSumsForGroup b (row * GROUPS_PER_ROW + (1 + k)) :=
    getColSums_rowPartial b row k (1 + k) hrow (by omega) (by omega)
  have hprev : (if 1 ≤ k then (getColSumsForGroup b (row * GROUPS_PER_ROW + (k - 1))).1
        else 0) =
      (if k = 0 then 0 else (getColSumsForGroup b (row * GROUPS_PER_ROW + k - 1)).1) := by
    rcases Nat.eq_zero_or_pos k with h0 | hpos
    · subst h0
      norm_num
    · rw [if_pos (by omega), if_neg (by omega)]
      congr 2
      omega
  simp only [runRowStep, moveColSumsDownPipeline, rowStateAt, hfetch]
  rw [RowState.mk.injEq]
  have e1 : k + 1 - 2 = k - 1 := by omega
  have e2 : k + 1 - 1 = k := by omega
  have e3 : 1 + k = k + 1 := by omega
  refine ⟨?_, ?_, ?_, ?_, ?_⟩
  · -- the board after the write
    rw [← rowPartial_snoc b (row * GROUPS_PER_ROW) k]
    unfold updateBoardIndex
    funext i
    have hidx : row * GROUPS_PER_ROW + (1 + k) - 1 = row * GROUPS_PER_ROW + k := by omega
    rw [hidx]
    rcases Decidable.em (i = row * GROUPS_PER_ROW + k) with he | he
    · rw [if_pos he, if_pos he]
      simp only [rowNewWord, hprev]
      have harg : row * GROUPS_PER_ROW + (1 + k) = row * GROUPS_PER_ROW + k + 1 := by omega
      rw [harg]
    · rw [if_neg he, if_neg he]
  · -- prev_col_sum
    rw [e1]
    rcases Nat.eq_zero_or_pos k with h0 | hpos
    · subst h0
      norm_num
    · rw [if_pos (show 1 ≤ k by omega), if_pos (show 2 ≤ k + 1 by omega)]
  · -- curr_col_sums
    rw [e2, if_pos (show 1 ≤ k + 1 by omega)]
  · -- next_col_sums
    rw [e3]
  · -- next_group_vals
    rw [e3]

theorem runRow_fold_invariant (b : Board) (row : Nat) (hrow : 1 ≤ row) (k : Nat)
    (hk : k ≤ GROUPS_PER_ROW - 1) :
    (List.range' 1 k).foldl (runRowStep (row * GROUPS_PER_ROW))
      { board := b, prev_col_sum := 0, curr_col_sums := 0,
        next_col_sums := (getColSumsForGroup b (row * GROUPS_PER_ROW)).1,
        next_group_vals := (getColSumsForGroup b (row * GROUPS_PER_ROW)).2 } =
      rowStateAt b (row * GROUPS_PER_ROW) k := by
  induction k with
  | zero =>
    simp only [List.range'_zero, List.foldl_nil, rowStateAt]
    rw [RowState.mk.injEq]
    refine ⟨?_, ?_, ?_, ?_, ?_⟩
    · funext i
      unfold rowPartial
      rw [if_neg (by omega)]
    · norm_num
    · norm_num
    · rw [Nat.add_zero]
    · rw [Nat.add_zero]
  | succ k ih =>
    have hk' : k ≤ GROUPS_PER_ROW - 1 := by omega
    rw [List.range'_1_concat, List.foldl_append, ih hk', List.foldl_cons, List.foldl_nil]
    exact runRowStep_advances b row k hrow hk

/-- Closed form of `runRow`: the group loop writes `rowNewWord` to groups
`0, ..., GROUPS_PER_ROW - 2` of the row and leaves every other word
untouched. -/
theorem runRow_eq (b : Board) (row : Nat) (hrow : 1 ≤ row) (i : Nat) :
    runRow b row i =
      if row * GROUPS_PER_ROW ≤ i ∧ i < row * GROUPS_PER_ROW + (GROUPS_PER_ROW - 1) then
        rowNewWord b (row * GROUPS_PER_ROW) (i - row * GROUPS_PER_ROW)
      else b i := by
  have h := runRow_fold_invariant b row hrow (GROUPS_PER_ROW - 1) (Nat.le_refl _)
  show ((List.range' 1 (GROUPS_PER_ROW - 1)).foldl (runRowStep (row * GROUPS_PER_ROW))
    { board := b, prev_col_sum := 0, curr_col_sums := 0,
      next_col_sums := (getColSumsForGroup b (row * GROUPS_PER_ROW)).1,
      next_group_vals := (getColSumsForGroup b (row * GROUPS_PER_ROW)).2 }).board i = _
  rw [h]
  rfl

/-! ### A full `advance` step, row by row -/

theorem colBit_congr (b b' : Board) (row col : Nat)
    (h : b (row * GROUPS_PER_ROW + col / 16) = b' (row * GROUPS_PER_ROW + col / 16)) :
    colBit b row col = colBit b' row col := by
  unfold colBit
  rw [h]

theorem colBit_zero_word (b : Board) (row col : Nat)
    (h : b (row * GROUPS_PER_ROW + col / 16) = 0) : colBit b row col = 0 := by
  unfold colBit
  rw [h, lane_zero]

theorem colPrevBit_zero_word (b : Board) (row col : Nat)
    (h : b (row * GROUPS_PER_ROW + col / 16) = 0) : colPrevBit b row col = 0 := by
  unfold colPrevBit
  rw [h, lane_zero]

theorem newBit_le_one (b : Board) (row col : Nat) : newBit b row col ≤ 1 :=
  ruleBit_le_one _ _

/-- Reading bit 1 of an already-processed (or border, or padding) row during
the sweep yields the start-of-step bit 0 of that row. -/
theorem stepInv_prevBit (b0 bk : Board) (k col : Nat) (hB : BorderZero b0)
    (h : StepInv b0 bk k) (hk : k ≤ R) (hcol : col < 16 * GROUPS_PER_ROW) :
    colPrevBit bk k col = colBit b0 k col := by
  have hGPR : GROUPS_PER_ROW = 129 := rfl
  have hg : col / 16 < GROUPS_PER_ROW := by omega
  rcases Nat.eq_zero_or_pos k with hk0 | hkpos
  · subst hk0
    have hw : bk (0 * GROUPS_PER_ROW + col / 16) = b0 (0 * GROUPS_PER_ROW + col / 16) :=
      h.1 _ (by left; rw [hGPR]; omega)
    have hz : b0 (0 * GROUPS_PER_ROW + col / 16) = 0 := by
      have := hB.1 (col / 16) hg
      simpa using this
    rw [colPrevBit_zero_word bk 0 col (by rw [hw, hz]),
      colBit_zero_word b0 0 col hz]
  · rcases Nat.lt_or_ge (col / 16) (GROUPS_PER_ROW - 1) with hgl | hge
    · -- a written group of row k
      obtain ⟨hlt, hlane⟩ := h.2 k (col / 16) hkpos (Nat.le_refl k) hgl
      have ht : 15 - col % 16 < 16 := by omega
      have hκ : 16 * (col / 16) + (15 - (15 - col % 16)) = col := by omega
      have hl := hlane (15 - col % 16) ht
      rw [hκ] at hl
      unfold colPrevBit
      rw [hl]
      have h1 := colBit_le_one b0 k col
      have h2 := newBit_le_one b0 k col
      omega
    · -- the padding group of row k
      have hgeq : col / 16 = GROUPS_PER_ROW - 1 := by omega
      have hw : bk (k * GROUPS_PER_ROW + col / 16) = b0 (k * GROUPS_PER_ROW + col / 16) := by
        apply h.1
        right; right
        rw [hgeq, hGPR]
        omega
      have hz : b0 (k * GROUPS_PER_ROW + col / 16) = 0 := by
        rw [hgeq]
        exact hB.2.2 k (by omega)
      rw [colPrevBit_zero_word bk k col (by rw [hw, hz]),
        colBit_zero_word b0 k col hz]

/-- Rows not yet processed still hold their start-of-step words. -/
theorem stepInv_colBit_untouched (b0 bk : Board) (k row col : Nat)
    (h : StepInv b0 bk k) (hrow : k < row) (hcol : col < 16 * GROUPS_PER_ROW) :
    colBit bk row col = colBit b0 row col := by
  have hGPR : GROUPS_PER_ROW = 129 := rfl
  apply colBit_congr
  apply h.1
  right; left
  rw [hGPR] at hcol ⊢
  omega

theorem stepInv_vert (b0 bk : Board) (k col : Nat) (hB : BorderZero b0)
    (h : StepInv b0 bk k) (hk1 : k + 1 ≤ R) (hcol : col < 16 * GROUPS_PER_ROW) :
    vertSum bk (k + 1) col = vertOld b0 (k + 1) col := by
  unfold vertSum vertOld
  rw [Nat.add_sub_cancel]
  rw [stepInv_prevBit b0 bk k col hB h (by omega) hcol,
    stepInv_colBit_untouched b0 bk k (k + 1) col h (by omega) hcol,
    stepInv_colBit_untouched b0 bk k (k + 2) col h (by omega) hcol]

/-- Processing row `k + 1` preserves the sweep invariant. -/
theorem stepInv_runRow (b0 bk : Board) (k : Nat) (hB : BorderZero b0)
    (h : StepInv b0 bk k) (hk1 : k + 1 ≤ R) :
    StepInv b0 (runRow bk (k + 1)) (k + 1) := by
  have hGPR : GROUPS_PER_ROW = 129 := rfl
  constructor
  · intro i hcond
    rw [runRow_eq bk (k + 1) (by omega) i]
    rw [if_neg (by rw [hGPR] at hcond ⊢; omega)]
    apply h.1
    rw [hGPR] at hcond ⊢
    omega
  · intro ρ j hρ1 hρk hj
    rcases Nat.lt_or_ge ρ (k + 1) with hρlt | hρge
    · have heq : runRow bk (k + 1) (ρ * GROUPS_PER_ROW + j) = bk (ρ * GROUPS_PER_ROW + j) := by
        rw [runRow_eq bk (k + 1) (by omega)]
        rw [if_neg (by rw [hGPR] at hj ⊢; omega)]
      rw [heq]
      exact h.2 ρ j hρ1 (by omega) hj
    · have hρeq : ρ = k + 1 := by omega
      subst hρeq
      have heq : runRow bk (k + 1) ((k + 1) * GROUPS_PER_ROW + j) =
          rowNewWord bk ((k + 1) * GROUPS_PER_ROW) j := by
        rw [runRow_eq bk (k + 1) (by omega)]
        rw [if_pos (by rw [hGPR] at hj ⊢; omega)]
        congr 1
        omega
      rw [heq]
      refine ⟨rowNewWord_lt bk _ j, fun t ht => ?_⟩
      rw [rowNewWord_lane bk (k + 1) j t (by omega) (by omega) ht]
      have hκlt : 16 * j + (15 - t) < 16 * GROUPS_PER_ROW := by rw [hGPR] at hj ⊢; omega
      have hcb : colBit bk (k + 1) (16 * j + (15 - t)) = colBit b0 (k + 1) (16 * j + (15 - t)) :=
        stepInv_colBit_untouched b0 bk k (k + 1) _ h (by omega) hκlt
      have hnb : nbhdSum bk (k + 1) (16 * j + (15 - t)) =
          nbhdOld b0 (k + 1) (16 * j + (15 - t)) := by
        unfold nbhdSum nbhdOld
        have hv1 := stepInv_vert b0 bk k (16 * j + (15 - t)) hB h hk1 hκlt
        have hv2 := stepInv_vert b0 bk k (16 * j + (15 - t) + 1) hB h hk1
          (by rw [hGPR] at hj ⊢; omega)
        rcases Nat.eq_zero_or_pos (16 * j + (15 - t)) with hz | hpos
        · rw [hz] at hv1 hv2 ⊢
          rw [if_pos rfl, if_pos rfl, hv1, hv2]
        · have hv0 := stepInv_vert b0 bk k (16 * j + (15 - t) - 1) hB h hk1 (by omega)
          rw [if_neg (by omega), if_neg (by omega), hv0, hv1, hv2]
      rw [hcb, hnb]
      rfl

/-- The sweep invariant holds after the whole sequential `advance`. -/
theorem advance_stepInv (b0 : Board) (hB : BorderZero b0) :
    StepInv b0 (advance b0) R := by
  have key : ∀ k, k ≤ R → StepInv b0 ((List.range' 1 k).foldl runRow b0) k := by
    intro k
    induction k with
    | zero =>
      intro _
      simp only [List.range'_zero, List.foldl_nil]
      exact ⟨fun i _ => rfl, fun ρ j hρ1 hρk hj => by omega⟩
    | succ k ih =>
      intro hk1
      rw [List.range'_1_concat, List.foldl_append, List.foldl_cons, List.foldl_nil]
      have h1k : 1 + k = k + 1 := by omega
      rw [h1k]
      exact stepInv_runRow b0 _ k hB (ih (by omega)) hk1
  exact key R (Nat.le_refl R)

theorem advance_BorderZero (b0 : Board) (hB : BorderZero b0) : BorderZero (advance b0) := by
  have hGPR : GROUPS_PER_ROW = 129 := rfl
  have hR : R = 1024 := rfl
  have h := (advance_stepInv b0 hB).1
  refine ⟨fun g hg => ?_, fun g hg => ?_, fun row hrow => ?_⟩
  · rw [h g (by left; rw [hGPR] at hg ⊢; omega)]
    exact hB.1 g hg
  · rw [h _ (by right; left; rw [hGPR] at hg ⊢; rw [hR]; omega)]
    exact hB.2.1 g hg
  · rw [h _ (by right; right; rw [hGPR]; omega)]
    exact hB.2.2 row hrow

/-- Per interior cell, one sequential `advance` computes exactly `newBit` of
the start-of-step board, and bit 1 holds the start-of-step state. -/
theorem advance_cell (b0 : Board) (hB : BorderZero b0) (r c : Nat) (hr : r < R)
    (hc : c < C) :
    gridOf (advance b0) r c = (newBit b0 (r + 1) c == 1) := by
  have hGPR : GROUPS_PER_ROW = 129 := rfl
  have hR : R = 1024 := rfl
  have hC : C = 2048 := rfl
  have h := (advance_stepInv b0 hB).2 (r + 1) (c / 16) (by omega)
    (by omega) (by rw [hGPR]; rw [hC] at hc; omega)
  have ht : 15 - c % 16 < 16 := by omega
  have hl := h.2 (15 - c % 16) ht
  have hκ : 16 * (c / 16) + (15 - (15 - c % 16)) = c := by omega
  rw [hκ] at hl
  unfold gridOf colBit
  rw [hl]
  have h1 := colBit_le_one b0 (r + 1) c
  have h2 := newBit_le_one b0 (r + 1) c
  have hmod : (2 * colBit b0 (r + 1) c + newBit b0 (r + 1) c) % 2 = newBit b0 (r + 1) c := by
    omega
  rw [hmod]

/-! ### Bridge from `newBit` to the naive reference simulation -/

theorem gridBit_colBit (b : Board) (r' c' : Nat) :
    gridBit (gridOf b) r' c' = if r' < R ∧ c' < C then colBit b (r' + 1) c' else 0 := by
  unfold gridBit gridOf
  have hcb := colBit_le_one b (r' + 1) c'
  by_cases h : r' < R ∧ c' < C
  · rw [if_pos h]
    by_cases hg : colBit b (r' + 1) c' = 1
    · rw [if_pos ⟨h.1, h.2, by simp [hg]⟩, hg]
    · have h0 : colBit b (r' + 1) c' = 0 := by omega
      rw [h0, if_neg]
      rintro ⟨_, _, hgg⟩
      simp at hgg
  · rw [if_neg h, if_neg]
    rintro ⟨h1, h2, _⟩
    exact h ⟨h1, h2⟩

theorem colBit_row0 (b : Board) (hB : BorderZero b) (col : Nat)
    (hcol : col < 16 * GROUPS_PER_ROW) : colBit b 0 col = 0 := by
  apply colBit_zero_word
  have hg : col / 16 < GROUPS_PER_ROW := by
    have hGPR : GROUPS_PER_ROW = 129 := rfl
    rw [hGPR] at hcol ⊢
    omega
  simpa using hB.1 (col / 16) hg

theorem colBit_rowlast (b : Board) (hB : BorderZero b) (col : Nat)
    (hcol : col < 16 * GROUPS_PER_ROW) : colBit b (R + 1) col = 0 := by
  apply colBit_zero_word
  have hg : col / 16 < GROUPS_PER_ROW := by
    have hGPR : GROUPS_PER_ROW = 129 := rfl
    rw [hGPR] at hcol ⊢
    omega
  exact hB.2.1 (col / 16) hg

theorem colBit_padding (b : Board) (hB : BorderZero b) (row col : Nat)
    (hrow : row ≤ R + 1) (h1 : C ≤ col) (h2 : col < 16 * GROUPS_PER_ROW) :
    colBit b row col = 0 := by
  apply colBit_zero_word
  have hg : col / 16 = GROUPS_PER_ROW - 1 := by
    have hGPR : GROUPS_PER_ROW = 129 := rfl
    have hC : C = 2048 := rfl
    rw [hGPR] at h2 ⊢
    rw [hC] at h1
    omega
  rw [hg]
  exact hB.2.2 row hrow

theorem naive_above (b : Board) (hB : BorderZero b) (r : Nat) (hr : r < R) (κ : Nat)
    (hκ : κ ≤ C) :
    (if 1 ≤ r then (if r - 1 < R ∧ κ < C then colBit b (r - 1 + 1) κ else 0) else 0) =
      colBit b r κ := by
  have hbound : κ < 16 * GROUPS_PER_ROW := by
    have h1 : C = 2048 := rfl
    have h2 : GROUPS_PER_ROW = 129 := rfl
    rw [h2]
    rw [h1] at hκ
    omega
  by_cases h1 : 1 ≤ r
  · rw [if_pos h1]
    have hr1 : r - 1 + 1 = r := by omega
    by_cases h2 : κ < C
    · rw [if_pos ⟨by omega, h2⟩, hr1]
    · rw [if_neg (fun hand => h2 hand.2)]
      exact (colBit_padding b hB r κ (by omega) (by omega) hbound).symm
  · rw [if_neg h1]
    have hr0 : r = 0 := by omega
    subst hr0
    exact (colBit_row0 b hB κ hbound).symm

theorem naive_mid (b : Board) (hB : BorderZero b) (r : Nat) (hr : r < R) (κ : Nat)
    (hκ : κ ≤ C) :
    (if r < R ∧ κ < C then colBit b (r + 1) κ else 0) = colBit b (r + 1) κ := by
  have hbound : κ < 16 * GROUPS_PER_ROW := by
    have h1 : C = 2048 := rfl
    have h2 : GROUPS_PER_ROW = 129 := rfl
    rw [h2]
    rw [h1] at hκ
    omega
  by_cases h2 : κ < C
  · rw [if_pos ⟨hr, h2⟩]
  · rw [if_neg (fun hand => h2 hand.2)]
    exact (colBit_padding b hB (r + 1) κ (by omega) (by omega) hbound).symm

theorem naive_below (b : Board) (hB : BorderZero b) (r : Nat) (hr : r < R) (κ : Nat)
    (hκ : κ ≤ C) :
    (if r + 1 < R ∧ κ < C then colBit b (r + 2) κ else 0) = colBit b (r + 2) κ := by
  have hbound : κ < 16 * GROUPS_PER_ROW := by
    have h1 : C = 2048 := rfl
    have h2 : GROUPS_PER_ROW = 129 := rfl
    rw [h2]
    rw [h1] at hκ
    omega
  by_cases hb : r + 1 < R
  · by_cases h2 : κ < C
    · rw [if_pos ⟨hb, h2⟩]
    · rw [if_neg (fun hand => h2 hand.2)]
      exact (colBit_padding b hB (r + 2) κ (by omega) (by omega) hbound).symm
  · rw [if_neg (fun hand => hb hand.1)]
    have hr2 : r + 2 = R + 1 := by omega
    rw [hr2]
    exact (colBit_rowlast b hB κ hbound).symm

/-- The assembled 3x3 sum of the kernel equals the naive neighbour count plus
the self bit, for every interior cell. -/
theorem nbhdOld_naive (b : Board) (hB : BorderZero b) (r c : Nat) (hr : r < R)
    (hc : c < C) :
    nbhdOld b (r + 1) c = naiveNeighborCount (gridOf b) r c + colBit b (r + 1) c := by
  unfold nbhdOld vertOld naiveNeighborCount
  simp only [Nat.add_sub_cancel, gridBit_colBit]
  have hstep : r + 1 + 1 = r + 2 := by omega
  simp only [hstep]
  by_cases hc0 : c = 0
  · subst hc0
    rw [if_pos rfl]
    have hf : ¬(1 ≤ (0 : Nat)) := by omega
    have hf2 : ¬(1 ≤ r ∧ 1 ≤ (0 : Nat)) := by omega
    simp only [if_neg hf, if_neg hf2]
    have hN := naive_above b hB r hr 0 (by omega)
    have hNE := naive_above b hB r hr (0 + 1) (by
      have h1 : C = 2048 := rfl
      omega)
    have hE := naive_mid b hB r hr (0 + 1) (by
      have h1 : C = 2048 := rfl
      omega)
    have hS := naive_below b hB r hr 0 (by omega)
    have hSE := naive_below b hB r hr (0 + 1) (by
      have h1 : C = 2048 := rfl
      omega)
    omega
  · have hc1 : 1 ≤ c := by omega
    have hand : (1 ≤ r ∧ 1 ≤ c) ↔ (1 ≤ r) := and_iff_left hc1
    simp only [hand, if_pos hc1, if_neg hc0]
    have hNW := naive_above b hB r hr (c - 1) (by omega)
    have hN := naive_above b hB r hr c (by omega)
    have hNE := naive_above b hB r hr (c + 1) (by omega)
    have hW := naive_mid b hB r hr (c - 1) (by omega)
    have hE := naive_mid b hB r hr (c + 1) (by omega)
    have hSW := naive_below b hB r hr (c - 1) (by omega)
    have hS := naive_below b hB r hr c (by omega)
    have hSE := naive_below b hB r hr (c + 1) (by omega)
    omega

/-- The packed kernel's next-generation bit agrees with the textbook rule on
the represented grid, for every interior cell. -/
theorem newBit_naive (b : Board) (hB : BorderZero b) (r c : Nat) (hr : r < R)
    (hc : c < C) : (newBit b (r + 1) c == 1) = naiveStep (gridOf b) r c := by
  unfold newBit ruleBit naiveStep lifeNext
  rw [nbhdOld_naive b hB r c hr hc]
  have hself : colBit b (r + 1) c ≤ 1 := colBit_le_one b (r + 1) c
  have hsum : naiveNeighborCount (gridOf b) r c + colBit b (r + 1) c - colBit b (r + 1) c =
      naiveNeighborCount (gridOf b) r c := by omega
  rw [hsum]
  have hgrid : gridOf b r c = (colBit b (r + 1) c == 1) := rfl
  rw [hgrid]
  set n := naiveNeighborCount (gridOf b) r c with hn
  set s := colBit b (r + 1) c with hs
  by_cases h3 : n = 3
  · have e1 : (n == 3) = true := by simp [h3]
    rw [if_pos (Or.inl h3), e1]
    simp
  · have e1 : (n == 3) = false := by simp [h3]
    by_cases h2 : n = 2
    · have e2 : (n == 2) = true := by simp [h2]
      rcases Nat.le_one_iff_eq_zero_or_eq_one.mp hself with h0 | h1
      · have e3 : (s == 1) = false := by simp [h0]
        rw [if_neg (by omega), e1, e3]
        simp
      · have e3 : (s == 1) = true := by simp [h1]
        rw [if_pos (Or.inr ⟨h2, h1⟩), e1, e2, e3]
        simp
    · have e2 : (n == 2) = false := by simp [h2]
      rw [if_neg (by omega), e1, e2]
      simp

theorem naiveStep_congr (g1 g2 : Nat → Nat → Bool)
    (h : ∀ r c, r < R → c < C → g1 r c = g2 r c) (r c : Nat) (hr : r < R) (hc : c < C) :
    naiveStep g1 r c = naiveStep g2 r c := by
  have hgb : ∀ r' c', gridBit g1 r' c' = gridBit g2 r' c' := by
    intro r' c'
    unfold gridBit
    by_cases hin : r' < R ∧ c' < C
    · rw [h r' c' hin.1 hin.2]
    · rw [if_neg (fun hand => hin ⟨hand.1, hand.2.1⟩),
        if_neg (fun hand => hin ⟨hand.1, hand.2.1⟩)]
  unfold naiveStep naiveNeighborCount
  rw [h r c hr hc]
  simp only [hgb]

theorem naiveStep_iterate_congr (g1 g2 : Nat → Nat → Bool) (s : Nat)
    (h : ∀ r c, r < R → c < C → g1 r c = g2 r c) :
    ∀ r c, r < R → c < C → naiveStep^[s] g1 r c = naiveStep^[s] g2 r c := by
  induction s generalizing g1 g2 with
  | zero =>
    intro r c hr hc
    simpa using h r c hr hc
  | succ s ih =>
    intro r c hr hc
    rw [Function.iterate_succ_apply, Function.iterate_succ_apply]
    exact ih (naiveStep g1) (naiveStep g2)
      (fun r' c' hr' hc' => naiveStep_congr g1 g2 h r' c' hr' hc') r c hr hc

/-- C1: for any initial board whose borders and padding are dead, iterating
the sequential `advance` (rows processed in increasing order) produces, at
every interior cell and after any number of steps, exactly the alive/dead
grid of the textbook double-buffered reference simulation started from the
same initial grid. -/
theorem advance_refines_naive (b : Board) (hB : BorderZero b) (steps r c : Nat)
    (hr : r < R) (hc : c < C) :
    gridOf (advance^[steps] b) r c = naiveStep^[steps] (gridOf b) r c := by
  induction steps generalizing b with
  | zero => rfl
  | succ s ih =>
    rw [Function.iterate_succ_apply, Function.iterate_succ_apply]
    have hB' := advance_BorderZero b hB
    rw [ih (advance b) hB']
    exact naiveStep_iterate_congr (gridOf (advance b)) (naiveStep (gridOf b)) s
      (fun r' c' hr' hc' => by
        rw [advance_cell b hB r' c' hr' hc', newBit_naive b hB r' c' hr' hc']) r c hr hc

/-- Witness for C1 at a concrete board, step count and cell. -/
theorem advance_refines_naive_witness :
    gridOf (advance^[1] (fun _ => 0)) 0 0 = naiveStep^[1] (gridOf (fun _ => 0)) 0 0 :=
  advance_refines_naive (fun _ => 0)
    ⟨fun _ _ => rfl, fun _ _ => rfl, fun _ _ => rfl⟩ 1 0 0 (by decide) (by decide)

/-- C3: on a sum word whose lane `t` holds `N t + S t` (3x3 sum including
self, at most 9) and a self word whose lane `t` holds the self bit `S t`,
every output lane of `neighborSumToStateBit` is 1 exactly when
`N t = 3` or (`S t = 1` and `N t = 2`), and 0 otherwise; each lane's output
depends only on that lane's inputs, simultaneously for all 16 lanes. -/
theorem neighborSumToStateBit_table (sum gv : Nat) (N S : Nat → Nat)
    (hsum : sum < 2 ^ 64) (hgv : gv < 2 ^ 64)
    (hNS : ∀ t, t < 16 → N t ≤ 8 ∧ S t ≤ 1 ∧ lane t sum = N t + S t ∧ lane t gv = S t) :
    ∀ t, t < 16 → lane t (neighborSumToStateBit sum gv) =
      if N t = 3 ∨ (S t = 1 ∧ N t = 2) then 1 else 0 := by
  intro t ht
  obtain ⟨hN8, hS1, hsumt, hgvt⟩ := hNS t ht
  rw [neighborSum_lane sum gv hsum hgv (fun u hu => by
      obtain ⟨hN8u, hS1u, hsumu, hgvu⟩ := hNS u hu
      refine ⟨by omega, by omega, by omega⟩) t ht]
  unfold ruleBit
  rw [hsumt, hgvt]
  have e : N t + S t - S t = N t := by omega
  rw [e]
  by_cases h : N t = 3 ∨ (S t = 1 ∧ N t = 2)
  · rw [if_pos h, if_pos (by tauto)]
  · rw [if_neg h, if_neg (by tauto)]

/-- Witness for C3: every lane holds neighbour count 2 with a live self, so
every output lane is alive (survival). -/
theorem neighborSumToStateBit_table_witness :
    lane 0 (neighborSumToStateBit 0x3333333333333333 0x1111111111111111) =
      if (2 : Nat) = 3 ∨ ((1 : Nat) = 1 ∧ (2 : Nat) = 2) then 1 else 0 :=
  neighborSumToStateBit_table 0x3333333333333333 0x1111111111111111
    (fun _ => 2) (fun _ => 1) (by norm_num) (by norm_num) (by decide) 0 (by norm_num)

/-- C4: for a group with a full row above and below it, `getColSumsForGroup`
returns the group's bit-0 lanes in `group_val_out` and column sums equal，per
lane, to self (bit 0) plus bit 1 of the group one row above (selected by the
right shift) plus bit 0 of the group one row below; the board is not
modified (the model is a pure function of the board). -/
theorem getColSumsForGroup_spec (b : Board) (gi : Nat) (hgi : GROUPS_PER_ROW ≤ gi) :
    (getColSumsForGroup b gi).2 = b gi &&& LOW_BIT_NYBBLE_BITMASK ∧
    (∀ t, t < 16 → lane t ((getColSumsForGroup b gi).2) = lane t (b gi) % 2) ∧
    (∀ t, t < 16 → lane t ((getColSumsForGroup b gi).1) =
      lane t (b gi) % 2 +
        (lane t (b (gi - GROUPS_PER_ROW)) / 2 % 2 + lane t (b (gi + GROUPS_PER_ROW)) % 2)) :=
  ⟨rfl, fun t ht => getColSums_val_lane b gi t ht, fun t ht => getColSums_lane b gi t ht⟩

/-- Witness for C4 at a concrete board and the first interior group index. -/
theorem getColSumsForGroup_spec_witness :
    ((getColSumsForGroup (fun _ => 0x3) GROUPS_PER_ROW).2 =
        (fun (_ : Nat) => 0x3) GROUPS_PER_ROW &&& LOW_BIT_NYBBLE_BITMASK) ∧
    (∀ t, t < 16 → lane t ((getColSumsForGroup (fun _ => 0x3) GROUPS_PER_ROW).2) =
      lane t ((fun (_ : Nat) => 0x3) GROUPS_PER_ROW) % 2) ∧
    (∀ t, t < 16 → lane t ((getColSumsForGroup (fun _ => 0x3) GROUPS_PER_ROW).1) =
      lane t ((fun (_ : Nat) => 0x3) GROUPS_PER_ROW) % 2 +
        (lane t ((fun (_ : Nat) => 0x3) (GROUPS_PER_ROW - GROUPS_PER_ROW)) / 2 % 2 +
          lane t ((fun (_ : Nat) => 0x3) (GROUPS_PER_ROW + GROUPS_PER_ROW)) % 2)) :=
  getColSumsForGroup_spec (fun _ => 0x3) GROUPS_PER_ROW (Nat.le_refl _)

/-- C5: `createLeftNeighborsFromColSums` shifts the column sums one lane
toward the low end and injects the lowest lane of the previous group's sums
at the vacated top lane; `createRightNeighborsFromColSums` is the mirror.
With the zero left sentinel the left contribution at a row's first column
(lane 15) is 0, and with the all-zero padding group the next column sums are
0, so the right contribution at the last real column (lane 0) is 0: no
wraparound between column 0 and the last column in either direction. -/
theorem neighborShift_spec (cs ps ns : Nat) (hcs : cs < 2 ^ 64) (hns : ns < 2 ^ 64) :
    (∀ t, t < 15 → lane t (createLeftNeighborsFromColSums cs ps) = lane (t + 1) cs) ∧
    lane 15 (createLeftNeighborsFromColSums cs ps) = lane 0 ps ∧
    (∀ t, 1 ≤ t → t < 16 → lane t (createRightNeighborsFromColSums cs ns) = lane (t - 1) cs) ∧
    lane 0 (createRightNeighborsFromColSums cs ns) = lane 15 ns ∧
    lane 15 (createLeftNeighborsFromColSums cs 0) = 0 ∧
    lane 0 (createRightNeighborsFromColSums cs 0) = 0 ∧
    (∀ (b : Board) (gi : Nat), b gi = 0 → b (gi - GROUPS_PER_ROW) = 0 →
      b (gi + GROUPS_PER_ROW) = 0 → (getColSumsForGroup b gi).1 = 0) := by
  refine ⟨fun t ht => createLeft_lane_low cs ps t hcs ht,
    createLeft_lane_15 cs ps hcs,
    fun t h1 h2 => createRight_lane_hi cs ns t hns h1 h2,
    createRight_lane_0 cs ns hns, ?_, ?_, ?_⟩
  · rw [createLeft_lane_15 cs 0 hcs, lane_zero]
  · rw [createRight_lane_0 cs 0 (by positivity), lane_zero]
  · intro b gi h1 h2 h3
    show (b gi &&& LOW_BIT_NYBBLE_BITMASK) +
      (((b (gi - GROUPS_PER_ROW) >>> 1) &&& LOW_BIT_NYBBLE_BITMASK) +
        (b (gi + GROUPS_PER_ROW) &&& LOW_BIT_NYBBLE_BITMASK)) = 0
    rw [h1, h2, h3]
    simp

/-- Witness for C5 at concrete column-sum words. -/
theorem neighborShift_spec_witness :
    (∀ t, t < 15 →
      lane t (createLeftNeighborsFromColSums 0x0123456789abcdef 0x3210) = lane (t + 1) 0x0123456789abcdef) ∧
    lane 15 (createLeftNeighborsFromColSums 0x0123456789abcdef 0x3210) = lane 0 0x3210 ∧
    (∀ t, 1 ≤ t → t < 16 →
      lane t (createRightNeighborsFromColSums 0x0123456789abcdef 0x1230000000000000) =
        lane (t - 1) 0x0123456789abcdef) ∧
    lane 0 (createRightNeighborsFromColSums 0x0123456789abcdef 0x1230000000000000) =
      lane 15 0x1230000000000000 ∧
    lane 15 (createLeftNeighborsFromColSums 0x0123456789abcdef 0) = 0 ∧
    lane 0 (createRightNeighborsFromColSums 0x0123456789abcdef 0) = 0 ∧
    (∀ (b : Board) (gi : Nat), b gi = 0 → b (gi - GROUPS_PER_ROW) = 0 →
      b (gi + GROUPS_PER_ROW) = 0 → (getColSumsForGroup b gi).1 = 0) :=
  neighborShift_spec 0x0123456789abcdef 0x3210 0x1230000000000000 (by norm_num) (by norm_num)

/-- C6: `updateBoardIndex` stores at the given index exactly the bit-0 lanes
of the previous state shifted into bit 1, OR-ed with the bit-0 lanes of the
new state in bit 0; every written lane has bits 2 and 3 zero, the pre-update
current bit of each cell is recoverable as bit 1, and no other index is
modified. -/
theorem updateBoardIndex_spec (b : Board) (idx new_state prev_state : Nat) :
    updateBoardIndex b idx new_state prev_state idx =
      (((prev_state &&& LOW_BIT_NYBBLE_BITMASK) <<< 1) % 2 ^ 64) |||
        (new_state &&& LOW_BIT_NYBBLE_BITMASK) ∧
    (∀ i, i ≠ idx → updateBoardIndex b idx new_state prev_state i = b i) ∧
    updateBoardIndex b idx new_state prev_state idx < 2 ^ 64 ∧
    (∀ t, t < 16 →
      lane t (updateBoardIndex b idx new_state prev_state idx) =
        2 * (lane t prev_state % 2) + lane t new_state % 2 ∧
      lane t (updateBoardIndex b idx new_state prev_state idx) < 4 ∧
      lane t (updateBoardIndex b idx new_state prev_state idx) / 2 % 2 =
        lane t prev_state % 2) := by
  have hval : updateBoardIndex b idx new_state prev_state idx =
      (((prev_state &&& LOW_BIT_NYBBLE_BITMASK) <<< 1) % 2 ^ 64) |||
        (new_state &&& LOW_BIT_NYBBLE_BITMASK) := by
    show (if idx = idx then _ else b idx) = _
    rw [if_pos rfl]
  have hXlt : prev_state &&& LOW_BIT_NYBBLE_BITMASK < 2 ^ 64 := mask_low_lt prev_state
  have hshift : ((prev_state &&& LOW_BIT_NYBBLE_BITMASK) <<< 1) % 2 ^ 64 =
      2 * (prev_state &&& LOW_BIT_NYBBLE_BITMASK) := by
    rw [Nat.shiftLeft_eq]
    have h2 : (prev_state &&& LOW_BIT_NYBBLE_BITMASK) * 2 ^ 1 =
        2 * (prev_state &&& LOW_BIT_NYBBLE_BITMASK) := by ring
    rw [h2]
    apply Nat.mod_eq_of_lt
    have hle : prev_state &&& LOW_BIT_NYBBLE_BITMASK ≤ LOW_BIT_NYBBLE_BITMASK :=
      Nat.and_le_right
    have hbound : 2 * LOW_BIT_NYBBLE_BITMASK < 2 ^ 64 := by norm_num [LOW_BIT_NYBBLE_BITMASK]
    omega
  have hdouble := lane_double (prev_state &&& LOW_BIT_NYBBLE_BITMASK) hXlt
    (fun u hu => by have := lane_mask_low_le_one u prev_state; omega)
  refine ⟨hval, fun i hi => ?_, ?_, fun t ht => ?_⟩
  · show (if i = idx then _ else b i) = b i
    rw [if_neg hi]
  · rw [hval]
    exact Nat.or_lt_two_pow (Nat.mod_lt _ (by positivity)) (mask_low_lt _)
  · have hlane : lane t (updateBoardIndex b idx new_state prev_state idx) =
        2 * (lane t prev_state % 2) + lane t new_state % 2 := by
      rw [hval, lane_lor, hshift, hdouble.2 t ht, lane_mask_low t prev_state ht,
        lane_mask_low t new_state ht]
      exact or_double_small _ _ (by omega) (by omega)
    refine ⟨hlane, ?_, ?_⟩
    · rw [hlane]
      have h1 : lane t prev_state % 2 ≤ 1 := by omega
      have h2 : lane t new_state % 2 ≤ 1 := by omega
      omega
    · rw [hlane]
      have h1 : lane t prev_state % 2 ≤ 1 := by omega
      have h2 : lane t new_state % 2 ≤ 1 := by omega
      omega

/-- Witness for C6 at concrete arguments. -/
theorem updateBoardIndex_spec_witness :
    updateBoardIndex (fun _ => 0) 7 0x10 0x23 7 =
      (((0x23 &&& LOW_BIT_NYBBLE_BITMASK) <<< 1) % 2 ^ 64) |||
        (0x10 &&& LOW_BIT_NYBBLE_BITMASK) ∧
    (∀ i, i ≠ 7 → updateBoardIndex (fun _ => 0) 7 0x10 0x23 i = (fun (_ : Nat) => 0) i) ∧
    updateBoardIndex (fun _ => 0) 7 0x10 0x23 7 < 2 ^ 64 ∧
    (∀ t, t < 16 →
      lane t (updateBoardIndex (fun _ => 0) 7 0x10 0x23 7) =
        2 * (lane t 0x23 % 2) + lane t 0x10 % 2 ∧
      lane t (updateBoardIndex (fun _ => 0) 7 0x10 0x23 7) < 4 ∧
      lane t (updateBoardIndex (fun _ => 0) 7 0x10 0x23 7) / 2 % 2 = lane t 0x23 % 2) :=
  updateBoardIndex_spec (fun _ => 0) 7 0x10 0x23

/-- C9: every board index read or written during `runRow board row` for an
interior row lies inside the allocated buffer of `BOARD_SIZE_GROUPS` words,
and every `getColSumsForGroup` call site has a full row above it, so the
`group_index - GROUPS_PER_ROW` read never underflows. -/
theorem access_bounds (row : Nat) (h1 : 1 ≤ row) (h2 : row ≤ R) :
    (∀ i, i ∈ runRowReadIndices row → i < BOARD_SIZE_GROUPS) ∧
    (∀ i, i ∈ runRowWriteIndices row → i < BOARD_SIZE_GROUPS) ∧
    (∀ g, g < GROUPS_PER_ROW → GROUPS_PER_ROW ≤ row * GROUPS_PER_ROW + g) := by
  have hGPR : GROUPS_PER_ROW = 129 := rfl
  have hR : R = 1024 := rfl
  have hBS : BOARD_SIZE_GROUPS = 132354 := rfl
  refine ⟨fun i hi => ?_, fun i hi => ?_, fun g hg => ?_⟩
  · unfold runRowReadIndices at hi
    rw [List.mem_flatMap] at hi
    obtain ⟨g, hg, hmem⟩ := hi
    rw [List.mem_range] at hg
    unfold colSumReadIndices at hmem
    have hmem' : i = row * GROUPS_PER_ROW + g - GROUPS_PER_ROW ∨
        i = row * GROUPS_PER_ROW + g ∨ i = row * GROUPS_PER_ROW + g + GROUPS_PER_ROW := by
      simpa using hmem
    rw [hGPR] at hg hmem'
    rw [hBS]
    rw [hR] at h2
    rcases hmem' with h | h | h
    all_goals omega
  · unfold runRowWriteIndices at hi
    rw [List.mem_map] at hi
    obtain ⟨g, hg, hmem⟩ := hi
    rw [List.mem_range'_1] at hg
    rw [hGPR] at hg hmem
    rw [hBS]
    rw [hR] at h2
    omega
  · rw [hGPR] at hg ⊢
    omega

/-- Witness for C9 at the first interior row. -/
theorem access_bounds_witness :
    (∀ i, i ∈ runRowReadIndices 1 → i < BOARD_SIZE_GROUPS) ∧
    (∀ i, i ∈ runRowWriteIndices 1 → i < BOARD_SIZE_GROUPS) ∧
    (∀ g, g < GROUPS_PER_ROW → GROUPS_PER_ROW ≤ 1 * GROUPS_PER_ROW + g) :=
  access_bounds 1 (Nat.le_refl 1) (by decide)

/-! ### Write locality of `advance`, border immutability and the lane bound -/

theorem foldl_runRow_untouched (l : List Nat) (b : Board) (i : Nat)
    (hrows : ∀ row, row ∈ l → 1 ≤ row)
    (hout : ∀ row, row ∈ l → i < row * GROUPS_PER_ROW ∨
      row * GROUPS_PER_ROW + (GROUPS_PER_ROW - 1) ≤ i) :
    (l.foldl runRow b) i = b i := by
  induction l generalizing b with
  | nil => rfl
  | cons row l ih =>
    rw [List.foldl_cons]
    rw [ih (runRow b row) (fun r hr => hrows r (by simp [hr]))
      (fun r hr => hout r (by simp [hr]))]
    rw [runRow_eq b row (hrows row (by simp)) i, if_neg]
    have := hout row (by simp)
    omega

theorem advance_untouched (b : Board) (i : Nat)
    (h : i / GROUPS_PER_ROW = 0 ∨ R < i / GROUPS_PER_ROW ∨
      i % GROUPS_PER_ROW = GROUPS_PER_ROW - 1) :
    advance b i = b i := by
  have hGPR : GROUPS_PER_ROW = 129 := rfl
  have hR : R = 1024 := rfl
  apply foldl_runRow_untouched
  · intro row hrow
    rw [List.mem_range'_1] at hrow
    omega
  · intro row hrow
    rw [List.mem_range'_1] at hrow
    rw [hGPR] at h ⊢
    rw [hR] at h hrow
    omega

/-- C7: `advance` writes only groups `0, ..., GROUPS_PER_ROW - 2` of rows
`1, ..., R` — every word of the two border rows and every padding word keeps
its value — and consequently a board whose border rows and trailing padding
groups are all zero still has them all zero after any number of steps. -/
theorem advance_border_immutable :
    (∀ (b : Board) (i : Nat),
      (i / GROUPS_PER_ROW = 0 ∨ R < i / GROUPS_PER_ROW ∨
        i % GROUPS_PER_ROW = GROUPS_PER_ROW - 1) → advance b i = b i) ∧
    (∀ b : Board, BorderZero b → ∀ k, BorderZero (advance^[k] b)) := by
  have hGPR : GROUPS_PER_ROW = 129 := rfl
  have hR : R = 1024 := rfl
  refine ⟨fun b i h => advance_untouched b i h, fun b hB k => ?_⟩
  induction k with
  | zero => exact hB
  | succ k ih =>
    rw [Function.iterate_succ_apply']
    refine ⟨fun g hg => ?_, fun g hg => ?_, fun row hrow => ?_⟩
    · rw [advance_untouched _ g (by left; rw [hGPR] at hg ⊢; omega)]
      exact ih.1 g hg
    · rw [advance_untouched _ _ (by right; left; rw [hGPR] at hg ⊢; rw [hR]; omega)]
      exact ih.2.1 g hg
    · rw [advance_untouched _ _ (by right; right; rw [hGPR]; omega)]
      exact ih.2.2 row hrow

/-- Witness for C7: locality at an untouched index, and border preservation
over two steps of the all-dead board. -/
theorem advance_border_immutable_witness :
    advance (fun _ => 0x5) 0 = (fun (_ : Nat) => 0x5) 0 ∧
      BorderZero (advance^[2] (fun _ => 0)) :=
  ⟨advance_border_immutable.1 (fun _ => 0x5) 0 (by left; decide),
    advance_border_immutable.2 (fun _ => 0)
      ⟨fun _ _ => rfl, fun _ _ => rfl, fun _ _ => rfl⟩ 2⟩

theorem runRow_LaneInv (b : Board) (row : Nat) (hrow : 1 ≤ row) (h : LaneInv b) :
    LaneInv (runRow b row) := by
  have hGPR : GROUPS_PER_ROW = 129 := rfl
  intro i
  rw [runRow_eq b row hrow i]
  by_cases hc : row * GROUPS_PER_ROW ≤ i ∧ i < row * GROUPS_PER_ROW + (GROUPS_PER_ROW - 1)
  · rw [if_pos hc]
    refine ⟨rowNewWord_lt b _ _, fun t ht => ?_⟩
    exact rowNewWord_lane_lt4 b row (i - row * GROUPS_PER_ROW) t hrow
      (by rw [hGPR] at hc ⊢; omega) ht
  · rw [if_neg hc]
    exact h i

theorem advance_LaneInv (b : Board) (h : LaneInv b) : LaneInv (advance b) := by
  have key : ∀ (l : List Nat) (b : Board), (∀ row, row ∈ l → 1 ≤ row) → LaneInv b →
      LaneInv (l.foldl runRow b) := by
    intro l
    induction l with
    | nil => intro b _ hb; exact hb
    | cons row l ih =>
      intro b hrows hb
      rw [List.foldl_cons]
      exact ih (runRow b row) (fun r hr => hrows r (by simp [hr]))
        (runRow_LaneInv b row (hrows row (by simp)) hb)
  apply key
  · intro row hrow
    rw [List.mem_range'_1] at hrow
    omega
  · exact h

/-- C8: starting from a board whose lanes all have bits 2 and 3 zero, every
reachable board keeps every lane below 4; on every reachable board all
column-sum lanes are at most 3 and all assembled 3x3-sum lanes at most 9,
the assembling additions never carry across a lane boundary, never overflow
the 64-bit word, and the subtraction of the self lanes inside
`neighborSumToStateBit` never borrows across a lane boundary. -/
theorem lane_bound_invariant (b0 : Board) (hInv : LaneInv b0) (k : Nat) :
    LaneInv (advance^[k] b0) ∧
    (∀ gi t, t < 16 → lane t ((getColSumsForGroup (advance^[k] b0) gi).1) ≤ 3) ∧
    (∀ row j t, 1 ≤ row → j ≤ GROUPS_PER_ROW - 2 → t < 16 →
      assembledSums (advance^[k] b0) (row * GROUPS_PER_ROW) j < 2 ^ 64 ∧
      lane t (assembledSums (advance^[k] b0) (row * GROUPS_PER_ROW) j) =
        lane t ((getColSumsForGroup (advance^[k] b0) (row * GROUPS_PER_ROW + j)).1) +
          lane t (createLeftNeighborsFromColSums
            ((getColSumsForGroup (advance^[k] b0) (row * GROUPS_PER_ROW + j)).1)
            (if j = 0 then 0
              else (getColSumsForGroup (advance^[k] b0) (row * GROUPS_PER_ROW + j - 1)).1)) +
          lane t (createRightNeighborsFromColSums
            ((getColSumsForGroup (advance^[k] b0) (row * GROUPS_PER_ROW + j)).1)
            ((getColSumsForGroup (advance^[k] b0) (row * GROUPS_PER_ROW + j + 1)).1)) ∧
      lane t (assembledSums (advance^[k] b0) (row * GROUPS_PER_ROW) j) ≤ 9 ∧
      lane t ((2 ^ 64 + assembledSums (advance^[k] b0) (row * GROUPS_PER_ROW) j % 2 ^ 64 -
          (getColSumsForGroup (advance^[k] b0) (row * GROUPS_PER_ROW + j)).2) % 2 ^ 64) =
        lane t (assembledSums (advance^[k] b0) (row * GROUPS_PER_ROW) j) -
          lane t ((getColSumsForGroup (advance^[k] b0) (row * GROUPS_PER_ROW + j)).2)) := by
  have hLane : LaneInv (advance^[k] b0) := by
    induction k with
    | zero => exact hInv
    | succ k ih =>
      rw [Function.iterate_succ_apply']
      exact advance_LaneInv _ ih
  set bk := advance^[k] b0 with hbk
  refine ⟨hLane, fun gi t ht => getColSums_lane_le bk gi t ht, fun row j t hrow hj ht => ?_⟩
  have hC : (getColSumsForGroup bk (row * GROUPS_PER_ROW + j)).1 < 2 ^ 64 :=
    getColSums_lt bk _
  have hCl : ∀ u, u < 16 → lane u ((getColSumsForGroup bk (row * GROUPS_PER_ROW + j)).1) ≤ 3 :=
    fun u hu => getColSums_lane_le bk _ u hu
  have hP : (if j = 0 then 0
      else (getColSumsForGroup bk (row * GROUPS_PER_ROW + j - 1)).1) < 2 ^ 64 := by
    split
    · positivity
    · exact getColSums_lt bk _
  have hPl : ∀ u, u < 16 → lane u (if j = 0 then 0
      else (getColSumsForGroup bk (row * GROUPS_PER_ROW + j - 1)).1) ≤ 3 := by
    intro u hu
    split
    · rw [lane_zero]
      omega
    · exact getColSums_lane_le bk _ u hu
  have hN : (getColSumsForGroup bk (row * GROUPS_PER_ROW + j + 1)).1 < 2 ^ 64 :=
    getColSums_lt bk _
  have hNl : ∀ u, u < 16 →
      lane u ((getColSumsForGroup bk (row * GROUPS_PER_ROW + j + 1)).1) ≤ 3 :=
    fun u hu => getColSums_lane_le bk _ u hu
  have asm := assembled_lane _ _ _ hC hP hN hCl hPl hNl
  have hlt : assembledSums bk (row * GROUPS_PER_ROW) j < 2 ^ 64 := asm.1
  have hmodid : assembledSums bk (row * GROUPS_PER_ROW) j % 2 ^ 64 =
      assembledSums bk (row * GROUPS_PER_ROW) j := Nat.mod_eq_of_lt hlt
  refine ⟨hlt, asm.2.1 t ht, asm.2.2 t ht, ?_⟩
  rw [hmodid]
  have hgvle : ∀ u, u < 16 →
      lane u ((getColSumsForGroup bk (row * GROUPS_PER_ROW + j)).2) ≤
        lane u (assembledSums bk (row * GROUPS_PER_ROW) j) := by
    intro u hu
    have h1 := asm.2.1 u hu
    have h2 := getColSums_self_le bk (row * GROUPS_PER_ROW + j) u hu
    unfold assembledSums
    unfold assembledSums at h1
    omega
  have hgvlt : (getColSumsForGroup bk (row * GROUPS_PER_ROW + j)).2 < 2 ^ 64 :=
    getColSums_val_lt bk _
  have hle : (getColSumsForGroup bk (row * GROUPS_PER_ROW + j)).2 ≤
      assembledSums bk (row * GROUPS_PER_ROW) j :=
    lane_le_total _ _ hlt hgvlt hgvle
  have hsub : 2 ^ 64 + assembledSums bk (row * GROUPS_PER_ROW) j -
      (getColSumsForGroup bk (row * GROUPS_PER_ROW + j)).2 =
      2 ^ 64 + (assembledSums bk (row * GROUPS_PER_ROW) j -
        (getColSumsForGroup bk (row * GROUPS_PER_ROW + j)).2) := by omega
  rw [hsub, Nat.add_mod_left, Nat.mod_eq_of_lt (by omega)]
  exact lane_sub _ _ hlt hgvlt hgvle t ht

/-- Witness for C8 at the all-dead board after one step. -/
theorem lane_bound_invariant_witness :
    LaneInv (advance^[1] (fun _ => 0)) ∧
    (∀ gi t, t < 16 → lane t ((getColSumsForGroup (advance^[1] (fun _ => 0)) gi).1) ≤ 3) ∧
    (∀ row j t, 1 ≤ row → j ≤ GROUPS_PER_ROW - 2 → t < 16 →
      assembledSums (advance^[1] (fun _ => 0)) (row * GROUPS_PER_ROW) j < 2 ^ 64 ∧
      lane t (assembledSums (advance^[1] (fun _ => 0)) (row * GROUPS_PER_ROW) j) =
        lane t ((getColSumsForGroup (advance^[1] (fun _ => 0)) (row * GROUPS_PER_ROW + j)).1) +
          lane t (createLeftNeighborsFromColSums
            ((getColSumsForGroup (advance^[1] (fun _ => 0)) (row * GROUPS_PER_ROW + j)).1)
            (if j = 0 then 0
              else (getColSumsForGroup (advance^[1] (fun _ => 0))
                (row * GROUPS_PER_ROW + j - 1)).1)) +
          lane t (createRightNeighborsFromColSums
            ((getColSumsForGroup (advance^[1] (fun _ => 0)) (row * GROUPS_PER_ROW + j)).1)
            ((getColSumsForGroup (advance^[1] (fun _ => 0)) (row * GROUPS_PER_ROW + j + 1)).1)) ∧
      lane t (assembledSums (advance^[1] (fun _ => 0)) (row * GROUPS_PER_ROW) j) ≤ 9 ∧
      lane t ((2 ^ 64 + assembledSums (advance^[1] (fun _ => 0)) (row * GROUPS_PER_ROW) j % 2 ^ 64 -
          (getColSumsForGroup (advance^[1] (fun _ => 0)) (row * GROUPS_PER_ROW + j)).2) % 2 ^ 64) =
        lane t (assembledSums (advance^[1] (fun _ => 0)) (row * GROUPS_PER_ROW) j) -
          lane t ((getColSumsForGroup (advance^[1] (fun _ => 0)) (row * GROUPS_PER_ROW + j)).2)) :=
  lane_bound_invariant (fun _ => 0)
    (fun _ => ⟨by norm_num, fun t _ => by rw [lane_zero]; omega⟩) 1

/-! ### Determinism and shape of the initial board built by `main` -/

theorem lor_even_bit (x b : Nat) (hb : b ≤ 1) : 2 * x ||| b = 2 * x + b := by
  rcases Nat.le_one_iff_eq_zero_or_eq_one.mp hb with h | h
  · subst h
    simp
  · subst h
    apply Nat.eq_of_testBit_eq
    intro i
    rw [Nat.testBit_or]
    cases i with
    | zero =>
      simp only [Nat.testBit_zero]
      have h1 : (2 * x) % 2 = 0 := by omega
      have h2 : (2 * x + 1) % 2 = 1 := by omega
      rw [h1, h2]
      simp
    | succ i =>
      rw [Nat.testBit_add_one, Nat.testBit_add_one, Nat.testBit_add_one]
      have e1 : 2 * x / 2 = x := by omega
      have e2 : (2 * x + 1) / 2 = x := by omega
      have e3 : (1 : Nat) / 2 = 0 := by norm_num
      rw [e1, e2, e3]
      simp [Nat.zero_testBit]

theorem initCellBit_le_one (rand : Nat → Nat) (n : Nat) : initCellBit rand n ≤ 1 := by
  unfold initCellBit
  split <;> omega

theorem initGroupFold_inv (rand : Nat → Nat) (first_call : Nat) :
    ∀ m, m ≤ 16 → initGroupFold rand first_call m < 16 ^ m ∧
      ∀ t, lane t (initGroupFold rand first_call m) ≤ 1 := by
  intro m
  induction m with
  | zero =>
    intro _
    refine ⟨by norm_num [initGroupFold], fun t => ?_⟩
    show lane t 0 ≤ 1
    rw [lane_zero]
    omega
  | succ m ih =>
    intro hm
    obtain ⟨hlt, hlanes⟩ := ih (by omega)
    have hunfold : initGroupFold rand first_call (m + 1) =
        ((initGroupFold rand first_call m <<< 4) % 2 ^ 64) |||
          initCellBit rand (first_call + m) := by
      unfold initGroupFold
      rw [List.range_succ, List.foldl_append, List.foldl_cons, List.foldl_nil]
    set g := initGroupFold rand first_call m with hg
    have hsh : (g <<< 4) % 2 ^ 64 = 16 * g := by
      rw [Nat.shiftLeft_eq]
      have e : g * 2 ^ 4 = 16 * g := by ring
      rw [e]
      apply Nat.mod_eq_of_lt
      have h1 : (16 : Nat) ^ m ≤ 16 ^ 15 := Nat.pow_le_pow_right (by norm_num) (by omega)
      have h2 : (2 : Nat) ^ 64 = 16 * 16 ^ 15 := by norm_num
      omega
    have hbit := initCellBit_le_one rand (first_call + m)
    have h16 : 16 * g = 2 * (8 * g) := by ring
    have hor : (g <<< 4) % 2 ^ 64 ||| initCellBit rand (first_call + m) =
        16 * g + initCellBit rand (first_call + m) := by
      rw [hsh, h16, lor_even_bit _ _ hbit]
    rw [hunfold, hor]
    constructor
    · have hp : (16 : Nat) ^ (m + 1) = 16 * 16 ^ m := by rw [Nat.pow_succ]; ring
      omega
    · intro t
      cases t with
      | zero =>
        have e : lane 0 (16 * g + initCellBit rand (first_call + m)) =
            initCellBit rand (first_call + m) := by
          unfold lane
          simp only [Nat.pow_zero, Nat.div_one]
          omega
        rw [e]
        exact hbit
      | succ t =>
        have e : lane (t + 1) (16 * g + initCellBit rand (first_call + m)) = lane t g := by
          unfold lane
          have hsplit : (16 : Nat) ^ (t + 1) = 16 * 16 ^ t := by rw [Nat.pow_succ]; ring
          rw [hsplit, ← Nat.div_div_eq_div_mul]
          have hdiv : (16 * g + initCellBit rand (first_call + m)) / 16 = g := by omega
          rw [hdiv]
        rw [e]
        exact hlanes t

theorem initGroupValue_shape (rand : Nat → Nat) (first_call : Nat) :
    initGroupValue rand first_call < 2 ^ 64 ∧
      ∀ t, lane t (initGroupValue rand first_call) ≤ 1 := by
  have heq : initGroupValue rand first_call = initGroupFold rand first_call 16 := rfl
  have h := initGroupFold_inv rand first_call 16 (Nat.le_refl 16)
  rw [heq]
  refine ⟨?_, h.2⟩
  have h64 : (2 : Nat) ^ 64 = 16 ^ 16 := by norm_num
  omega

/-- C10: the initial board of `main` does not depend on the command-line
arguments — with the constant seed 0 and compile-time dimensions any two runs
build bit-for-bit identical boards — and in that board only bit 0 of the
interior lanes may be set while the history bits, the border rows and the
padding groups are all zero. -/
theorem mainInit_deterministic :
    (∀ (a1 a2 b1 b2 : Nat) (rand : Nat → Nat),
      mainBoardAfterArgs a1 a2 rand = mainBoardAfterArgs b1 b2 rand) ∧
    (∀ rand : Nat → Nat, BorderZero (mainInitialBoard rand) ∧
      ∀ i, mainInitialBoard rand i < 2 ^ 64 ∧
        ∀ t, t < 16 → lane t (mainInitialBoard rand i) ≤ 1) := by
  have hGPR : GROUPS_PER_ROW = 129 := rfl
  have hR : R = 1024 := rfl
  refine ⟨fun a1 a2 b1 b2 rand => rfl, fun rand => ⟨⟨fun g hg => ?_, fun g hg => ?_,
    fun row hrow => ?_⟩, fun i => ?_⟩⟩
  · unfold mainInitialBoard
    rw [if_neg]
    rw [hGPR] at hg
    rw [hGPR, hR]
    omega
  · unfold mainInitialBoard
    rw [if_neg]
    rw [hGPR] at hg
    rw [hGPR, hR]
    omega
  · unfold mainInitialBoard
    rw [if_neg]
    rw [hR] at hrow
    rw [hGPR, hR]
    omega
  · unfold mainInitialBoard
    split
    · exact ⟨(initGroupValue_shape rand _).1, fun t _ => (initGroupValue_shape rand _).2 t⟩
    · refine ⟨by positivity, fun t _ => ?_⟩
      rw [lane_zero]
      omega

/-- Witness for C10 at concrete arguments and a concrete random stream. -/
theorem mainInit_deterministic_witness :
    mainBoardAfterArgs 1 0 (fun n => n) = mainBoardAfterArgs 500 1 (fun n => n) ∧
      BorderZero (mainInitialBoard (fun n => n)) ∧
      ∀ i, mainInitialBoard (fun n => n) i < 2 ^ 64 ∧
        ∀ t, t < 16 → lane t (mainInitialBoard (fun n => n) i) ≤ 1 :=
  ⟨mainInit_deterministic.1 1 0 500 1 (fun n => n),
    mainInit_deterministic.2 (fun n => n)⟩

/-! ### Order dependence of the unsynchronized parallel row sweep -/

theorem range_one_R_split : List.range' 1 R = 1 :: 2 :: List.range' 3 (R - 2) := by
  have hR : R = 1024 := rfl
  rw [hR]
  rw [show (1024 : Nat) = 1023 + 1 from rfl, List.range'_succ]
  rw [show (1023 : Nat) = 1022 + 1 from rfl, List.range'_succ]

/-- Under the schedule that runs row 2 before row 1, the final word of row 2,
group 0 is already determined by `runRow` on the initial board. -/
theorem swapped_row2_value :
    advanceWithRowOrder swappedRowOrder blinkerBoard (2 * GROUPS_PER_ROW) =
      rowNewWord blinkerBoard (2 * GROUPS_PER_ROW) 0 := by
  have hGPR : GROUPS_PER_ROW = 129 := rfl
  show (List.foldl runRow blinkerBoard (2 :: 1 :: List.range' 3 (R - 2)))
      (2 * GROUPS_PER_ROW) = _
  rw [List.foldl_cons, List.foldl_cons]
  rw [foldl_runRow_untouched (List.range' 3 (R - 2)) _ _
    (fun row hrow => by rw [List.mem_range'_1] at hrow; omega)
    (fun row hrow => by
      rw [List.mem_range'_1] at hrow
      rw [hGPR]
      left
      have hR : R = 1024 := rfl
      rw [hR] at hrow
      omega)]
  rw [runRow_eq _ 1 (by omega) _, if_neg (by rw [hGPR]; omega)]
  rw [runRow_eq _ 2 (by omega) _, if_pos (by rw [hGPR]; omega)]
  congr 1

/-- Under the sequential order, the final word of row 2, group 0 is computed
from the board in which row 1 has already been advanced. -/
theorem sequential_row2_value :
    advance blinkerBoard (2 * GROUPS_PER_ROW) =
      rowNewWord (runRow blinkerBoard 1) (2 * GROUPS_PER_ROW) 0 := by
  have hGPR : GROUPS_PER_ROW = 129 := rfl
  show (List.foldl runRow blinkerBoard (List.range' 1 R)) (2 * GROUPS_PER_ROW) = _
  rw [range_one_R_split, List.foldl_cons, List.foldl_cons]
  rw [foldl_runRow_untouched (List.range' 3 (R - 2)) _ _
    (fun row hrow => by rw [List.mem_range'_1] at hrow; omega)
    (fun row hrow => by
      rw [List.mem_range'_1] at hrow
      rw [hGPR]
      left
      have hR : R = 1024 := rfl
      rw [hR] at hrow
      omega)]
  rw [runRow_eq _ 2 (by omega) _, if_pos (by rw [hGPR]; omega)]
  congr 1

/-- `rowNewWord` at group 0 of a row depends only on the six words it
reads. -/
theorem rowNewWord0_reads (b b' : Board) (rsi : Nat)
    (h1 : b (rsi - GROUPS_PER_ROW) = b' (rsi - GROUPS_PER_ROW))
    (h2 : b rsi = b' rsi)
    (h3 : b (rsi + GROUPS_PER_ROW) = b' (rsi + GROUPS_PER_ROW))
    (h4 : b (rsi + 1 - GROUPS_PER_ROW) = b' (rsi + 1 - GROUPS_PER_ROW))
    (h5 : b (rsi + 1) = b' (rsi + 1))
    (h6 : b (rsi + 1 + GROUPS_PER_ROW) = b' (rsi + 1 + GROUPS_PER_ROW)) :
    rowNewWord b rsi 0 = rowNewWord b' rsi 0 := by
  simp only [rowNewWord, getColSumsForGroup, Nat.add_zero, if_pos]
  rw [h1, h2, h3, h4, h5, h6]

theorem runRow1_reads : ∀ i, i ∈ [GROUPS_PER_ROW, GROUPS_PER_ROW + 1,
    2 * GROUPS_PER_ROW, 2 * GROUPS_PER_ROW + 1, 3 * GROUPS_PER_ROW, 3 * GROUPS_PER_ROW + 1] →
    runRow blinkerBoard 1 i = blinkerAfterRow1 i := by
  intro i hi
  have hi' : i = GROUPS_PER_ROW ∨ i = GROUPS_PER_ROW + 1 ∨ i = 2 * GROUPS_PER_ROW ∨
      i = 2 * GROUPS_PER_ROW + 1 ∨ i = 3 * GROUPS_PER_ROW ∨ i = 3 * GROUPS_PER_ROW + 1 := by
    simpa using hi
  rcases hi' with h | h | h | h | h | h <;> subst h <;>
    rw [runRow_eq blinkerBoard 1 (by omega)] <;> decide

/-- C2 (refuted on the code): the unsynchronized `omp parallel for` over rows
admits a schedule — row 2 executed before row 1 — whose result differs from
the sequential single-threaded sweep on a concrete board: with a blinker in
the top row, sequential execution births the cell below the blinker's centre
while the reordered execution reads row 1's not-yet-written history bit and
leaves row 2 dead.  The schedule is a permutation of the sequential row
list. -/
theorem parallel_order_dependent :
    swappedRowOrder.Perm (List.range' 1 R) ∧
    advanceWithRowOrder swappedRowOrder blinkerBoard (2 * GROUPS_PER_ROW) ≠
      advance blinkerBoard (2 * GROUPS_PER_ROW) := by
  constructor
  · rw [range_one_R_split]
    exact List.Perm.swap 1 2 (List.range' 3 (R - 2))
  · rw [swapped_row2_value, sequential_row2_value]
    have hseq : rowNewWord (runRow blinkerBoard 1) (2 * GROUPS_PER_ROW) 0 =
        rowNewWord blinkerAfterRow1 (2 * GROUPS_PER_ROW) 0 := by
      apply rowNewWord0_reads <;> exact runRow1_reads _ (by decide)
    rw [hseq]
    decide
